import Mathlib

/-!
Verification development for the pydups duplicate-file scanner
(`pydups.py`).  The Python source is shallowly embedded: the filesystem is
a tree of nodes, `scantree`, `DB.update`, `DB.clean`, `DB.save`,
`DB.find_duplicates`, `scan_duplicates` and `clean_duplicates` are
translated function by function, and Python dictionaries are modelled as
insertion-ordered association lists with Python's insert/overwrite
semantics.  Paths are modelled as strings, joined with a slash; scanned
roots are assumed to be absolute, normalised paths, on which
`os.path.abspath` is the identity.  `hashlib.md5().hexdigest()` is
modelled as an unspecified-but-deterministic function of the byte stream
(`md5Hex`); blockwise reading (`blockiter`) feeds the whole stream, so it
is not modelled separately.  Errors raised by the Python code (IOError,
TypeError, AttributeError, ValueError) are modelled with `Except`.
-/

/-- Kinds of Python exceptions the modelled code can raise. -/
inductive PyError where
  | ioError
  | typeError
  | attributeError
  | valueError
  | fileNotFoundError
  | fileExistsError
deriving DecidableEq, Repr

/-- Model of Python `str.startswith`: character-list prefix test.
`listStarts pre s` is true when `pre` is a prefix of `s`. -/
def listStarts : List Char → List Char → Bool
  | [], _ => true
  | _ :: _, [] => false
  | a :: as, b :: bs => a == b && listStarts as bs

/-- Python `s.startswith(pre)`. -/
def py_startswith (s pre : String) : Bool := listStarts pre.data s.data

/-- Fuel-indexed glob matcher: the semantics of one `fnmatch.translate`d
pattern applied to a whole name (the translated regex is anchored, so a
`re.match` is a full match).  Stars match any, possibly empty, sequence of
characters; a question mark matches exactly one character; every other
character matches itself.  The fuel only serves to make the definition
structurally recursive; `globMatch` passes enough fuel for it never to run
out. -/
def globMatchF : Nat → List Char → List Char → Bool
  | 0, _, _ => false
  | _ + 1, [], s => s.isEmpty
  | f + 1, '*' :: ps, [] => globMatchF f ps []
  | f + 1, '*' :: ps, c :: cs =>
      globMatchF f ps (c :: cs) || globMatchF f ('*' :: ps) cs
  | _ + 1, _ :: _, [] => false
  | f + 1, p :: ps, c :: cs => (p == c || p == '?') && globMatchF f ps cs

/-- Glob match of a pattern against a whole name. -/
def globMatch (pat s : List Char) : Bool :=
  globMatchF (pat.length + s.length + 1) pat s

/-- Minimal regular-expression fragment: enough for the pattern the source
compiles when the ignore-pattern set is empty, namely a literal dash
followed by a start-of-string anchor. -/
inductive MiniRE where
  | lit (c : Char)
  | caret
  | seq (a b : MiniRE)

/-- Positions-in, position-out matching semantics for 'MiniRE' (no
multiline flag, so the anchor only matches at position zero). -/
def MiniRE.matchFrom : MiniRE → List Char → Nat → Option Nat
  | .lit c, s, i =>
      match s.drop i with
      | c' :: _ => if c' = c then some (i + 1) else none
      | [] => none
  | .caret, _, i => if i = 0 then some i else none
  | .seq a b, s, i =>
      match a.matchFrom s i with
      | some j => b.matchFrom s j
      | none => none

/-- The regex the source builds for an empty pattern set: a dash followed
by a caret, intended to match nothing. -/
def noMatchRE : MiniRE := MiniRE.seq (MiniRE.lit '-') MiniRE.caret

/-- Model of the compiled skip matcher of `scantree`: for a non-empty
pattern set, the alternation of the `fnmatch.translate`d patterns
(`re.match` at position zero); for an empty one, the dash-caret regex. -/
def compiledMatcher (patterns : List String) (name : String) : Bool :=
  if patterns.isEmpty then (noMatchRE.matchFrom name.data 0).isSome
  else patterns.any fun p => globMatch p.data name.data

/-- Default ignore patterns of the module. -/
def IGNORE_PATTERNS : List String := [".*", "cache*"]

/-- The fields of `os.stat_result` that pydups reads.  Modification times
are modelled as integers: `DirEntryStore.__init__` pipes every stat result
through `os.stat_result(...)`, which truncates `st_mtime` to the integral
field, so only integral times ever reach the store. -/
structure StatResult where
  st_size : Nat
  st_mtime : Int
  st_ino : Nat
deriving DecidableEq, Repr

mutual
/-- A filesystem node: a regular file (whose content is `none` when any
attempt to open or read it fails with an IOError), a directory, or a
symbolic link carrying its fully resolved target (`none` when broken). -/
inductive FSNode where
  | file (st : StatResult) (content : Option (List Nat))
  | dir (st : StatResult) (children : FSEntries)
  | symlink (st : StatResult) (target : Option FSNode)

/-- Named directory entries, in directory-listing order. -/
inductive FSEntries where
  | nil
  | cons (name : String) (node : FSNode) (rest : FSEntries)
end

/-- What `os.scandir` exposes about one directory entry, flattened:
the `is_dir`/`is_file` answers with and without following symlinks, the
`is_symlink` flag, the (symlink-following) stat, and the byte content
obtained by opening `path` (`none` when opening or reading fails). -/
structure PyDirEntry where
  name : String
  path : String
  isDirF : Bool
  isDirNoF : Bool
  isFileF : Bool
  isFileNoF : Bool
  isLink : Bool
  st : StatResult
  content : Option (List Nat)
deriving DecidableEq, Repr

/-- Build the `os.DirEntry` view of the child `node` named `name` of the
directory at `parent`. -/
def mkEntry (parent name : String) (node : FSNode) : PyDirEntry :=
  let p := parent ++ "/" ++ name
  match node with
  | FSNode.file st c => ⟨name, p, false, false, true, true, false, st, c⟩
  | FSNode.dir st _ => ⟨name, p, true, true, false, false, false, st, none⟩
  | FSNode.symlink st none => ⟨name, p, false, false, false, false, true, st, none⟩
  | FSNode.symlink _ (some (FSNode.file st' c)) =>
      ⟨name, p, false, false, true, false, true, st', c⟩
  | FSNode.symlink _ (some (FSNode.dir st' _)) =>
      ⟨name, p, true, false, false, false, true, st', none⟩
  | FSNode.symlink st (some (FSNode.symlink _ _)) =>
      ⟨name, p, false, false, false, false, true, st, none⟩

mutual
/-- Body of the `scantree` loop for one non-skipped entry: when
`entry.is_dir(follow_symlinks=follow)` holds the walk recurses into the
directory — and the recursive call `scantree(entry.path, follow_symlinks)`
passes no pattern argument, so deeper levels use the default
`IGNORE_PATTERNS`; otherwise the entry itself is yielded (note that
symbolic links to non-directories are yielded). -/
def scanEntryNode : FSNode → String → String → Bool → List PyDirEntry
  | FSNode.dir _ cs, parent, name, follow =>
      scanChildren cs (parent ++ "/" ++ name) follow IGNORE_PATTERNS
  | FSNode.symlink st (some (FSNode.dir st' cs)), parent, name, follow =>
      if follow then scanChildren cs (parent ++ "/" ++ name) follow IGNORE_PATTERNS
      else [mkEntry parent name (FSNode.symlink st (some (FSNode.dir st' cs)))]
  | node, parent, name, _ => [mkEntry parent name node]

/-- The `scantree` loop over the listing of one directory: entries whose
name matches the compiled pattern are skipped outright. -/
def scanChildren : FSEntries → String → Bool → List String → List PyDirEntry
  | FSEntries.nil, _, _, _ => []
  | FSEntries.cons name node rest, path, follow, patterns =>
      (if compiledMatcher patterns name then [] else scanEntryNode node path name follow)
        ++ scanChildren rest path follow patterns
end

/-- `scantree(path, follow_symlinks, ignore_patterns)` on the directory at
`path` whose listing is `cs`.  `follow` is the truthiness of the
`follow_symlinks` argument (Python only ever tests it for truth). -/
def scantree (cs : FSEntries) (path : String) (follow : Bool)
    (ignore_patterns : List String) : List PyDirEntry :=
  scanChildren cs path follow ignore_patterns

/-- `DirEntryStore`: the instantiable mirror of `os.DirEntry` the store
keeps.  Field names follow the slots `name`, `path`, `_is_dir`,
`_is_file`, `_is_symlink`, `_stat`. -/
structure DirEntryStore where
  name : String
  path : String
  is_dirFlag : Bool
  is_fileFlag : Bool
  is_symlinkFlag : Bool
  st : StatResult
deriving DecidableEq, Repr

/-- `DirEntryStore.__eq__`: same name, path and type flags, and same
stat size and modification time (the inode is not compared). -/
def DirEntryStore.pyEq (self other : DirEntryStore) : Bool :=
  other.name == self.name &&
  other.path == self.path &&
  other.is_dirFlag == self.is_dirFlag &&
  other.is_fileFlag == self.is_fileFlag &&
  other.is_symlinkFlag == self.is_symlinkFlag &&
  other.st.st_size == self.st.st_size &&
  other.st.st_mtime == self.st.st_mtime

/-- `DirEntryStore.from_entry`: snapshot of an `os.DirEntry`.  The calls
`entry.is_dir()`, `entry.is_file()` and `entry.stat()` use their default
`follow_symlinks=True`. -/
def DirEntryStore.from_entry (e : PyDirEntry) : DirEntryStore :=
  ⟨e.name, e.path, e.isDirF, e.isFileF, e.isLink, e.st⟩

/-- Model of `hashlib.md5(...).hexdigest()` over a whole byte stream: an
unspecified, deterministic digest function (its concrete value is never
used, only that equal streams give equal digests). -/
def md5Hex (bs : List Nat) : String := toString bs

/-- `md5_key(entry)`: open `entry.path` and hash its blocks.  The caller
supplies the byte content behind `entry.path`; `none` means the open or a
read raised an IOError, which the function propagates. -/
def md5_key (content : Option (List Nat)) : Except PyError String :=
  match content with
  | none => Except.error PyError.ioError
  | some bs => Except.ok (md5Hex bs)

/-- A database entry: the stored record plus the optional content hash. -/
structure DbEntry where
  direntry : DirEntryStore
  md5 : Option String
deriving DecidableEq, Repr

/-- A Python dict with string keys, as an insertion-ordered association
list. -/
abbrev PyDict (α : Type) := List (String × α)

/-- Python `d[k] = v`: overwrite in place, or append a fresh key. -/
def dictInsert {α : Type} (d : PyDict α) (k : String) (v : α) : PyDict α :=
  match d with
  | [] => [(k, v)]
  | (k', v') :: rest =>
      if k' = k then (k, v) :: rest else (k', v') :: dictInsert rest k v

/-- Python `d.get(k)` / `k in d` combined: first binding of `k`. -/
def dictGet? {α : Type} (d : PyDict α) (k : String) : Option α :=
  match d with
  | [] => none
  | (k', v) :: rest => if k' = k then some v else dictGet? rest k

/-- Python `d.update(d2)`: insert every binding of `d2` in order. -/
def dictUpdate {α : Type} (d d2 : PyDict α) : PyDict α :=
  d2.foldl (fun acc kv => dictInsert acc kv.1 kv.2) d

/-- `os.path.abspath`, on the already absolute, normalised paths of the
model: the identity. -/
def os_path_abspath (p : String) : String := p

/-- The `DB` class: the scan store. -/
structure DB where
  data : PyDict DbEntry
deriving DecidableEq, Repr

/-- `DB.clean(path)`: with no path the source calls `self.data.reset()` —
a method Python dicts do not have, so an AttributeError is raised；with a
path, every entry whose key starts with the absolute path is deleted. -/
def DB.clean (db : DB) (path : Option String) : Except PyError DB :=
  match path with
  | none => Except.error PyError.attributeError
  | some p =>
      let pre := os_path_abspath p
      Except.ok ⟨db.data.filter fun kv => !(py_startswith kv.1 pre)⟩

/-- The body of the `DB.update` walk loop.  `cache` is `self.data`,
read-only during the loop; `data` is the fresh dict being built; `hashed`
records the paths whose content `md5_key` was asked to hash (the
content-hash I/O performed).  A key already in the cache whose record
compares `__eq__`-equal to the fresh one is reused verbatim when either no
checksum was requested or the cached entry already has one; otherwise a
new entry is built, hashing the file when `checksum` is set — an IOError
from `md5_key` propagates and aborts the loop. -/
def updateLoop (cache : PyDict DbEntry) (checksum : Bool) :
    List PyDirEntry → PyDict DbEntry → List String →
    Except PyError (PyDict DbEntry × List String)
  | [], data, hashed => Except.ok (data, hashed)
  | e :: rest, data, hashed =>
      if e.isFileNoF then
        let entry := DirEntryStore.from_entry e
        let key := os_path_abspath entry.path
        let reuse :=
          match dictGet? cache key with
          | some cache_entry =>
              if DirEntryStore.pyEq entry cache_entry.direntry &&
                  ((checksum && cache_entry.md5.isSome) || !checksum) then
                some cache_entry
              else none
          | none => none
        match reuse with
        | some cache_entry =>
            updateLoop cache checksum rest (dictInsert data key cache_entry) hashed
        | none =>
            if checksum then
              match md5_key e.content with
              | Except.error err => Except.error err
              | Except.ok h =>
                  updateLoop cache checksum rest
                    (dictInsert data key ⟨entry, some h⟩) (hashed ++ [key])
            else
              updateLoop cache checksum rest (dictInsert data key ⟨entry, none⟩) hashed
      else updateLoop cache checksum rest data hashed

/-- `DB.update(dataroot, ignore_patterns, checksum)` on the root directory
whose listing is `fs`.  The source calls `scantree(dataroot,
ignore_patterns)`, so the pattern set is bound to the positional
`follow_symlinks` parameter (only its truthiness is used) and `scantree`
falls back to its default `IGNORE_PATTERNS`.  After the walk the store is
pruned of every key under the root and the fresh dict is merged in. -/
def DB.update (db : DB) (fs : FSEntries) (dataroot : String)
    (ignore_patterns : List String) (checksum : Bool) :
    Except PyError (DB × List String) :=
  let entries := scantree fs dataroot (!ignore_patterns.isEmpty) IGNORE_PATTERNS
  match updateLoop db.data checksum entries [] [] with
  | Except.error err => Except.error err
  | Except.ok (data, hashed) =>
      match db.clean (some dataroot) with
      | Except.error err => Except.error err
      | Except.ok db' => Except.ok (⟨dictUpdate db'.data data⟩, hashed)

/-- The three key functions, compared by identity in the source
(`keyfunc is md5_key`, `keyfunc == md5_key`); the constructors stand for
the function objects. -/
inductive KeyFunc where
  | name_key
  | name_and_size_key
  | md5_key
deriving DecidableEq, Repr

/-- `keyfunc.__name__`. -/
def KeyFunc.pyName : KeyFunc → String
  | .name_key => "name_key"
  | .name_and_size_key => "name_and_size_key"
  | .md5_key => "md5_key"

/-- `name_key(entry)`. -/
def name_key (e : DirEntryStore) : String := e.name

/-- `name_and_size_key(entry)`. -/
def name_and_size_key (e : DirEntryStore) : String × Nat := (e.name, e.st.st_size)

/-- The equivalence keys the three key functions produce.  The `kMd5` key
carries an optional digest because `DB._make_key` uses the stored `md5`
field, which can be `None`. -/
inductive EqKey where
  | kName (s : String)
  | kNameSize (p : String × Nat)
  | kMd5 (h : Option String)
deriving DecidableEq, Repr

/-- `DB._make_key(dbentry, keyfunc)`: when the key function is (by
identity) `md5_key`, the stored hash is used — never recomputed;
otherwise the key function is applied to the stored record. -/
def DB.make_key (dbe : DbEntry) (keyfunc : KeyFunc) : EqKey :=
  match keyfunc with
  | KeyFunc.md5_key => EqKey.kMd5 dbe.md5
  | KeyFunc.name_key => EqKey.kName (name_key dbe.direntry)
  | KeyFunc.name_and_size_key => EqKey.kNameSize (name_and_size_key dbe.direntry)

/-- `defaultdict(list)` append: extend the group of `k`, or open a new
group at the end. -/
def groupInsert (d : List (EqKey × List DirEntryStore)) (k : EqKey)
    (e : DirEntryStore) : List (EqKey × List DirEntryStore) :=
  match d with
  | [] => [(k, [e])]
  | (k', es) :: rest =>
      if k' = k then (k', es ++ [e]) :: rest else (k', es) :: groupInsert rest k e

/-- The result object: grouped duplicates, total scanned files, and the
producing key function's name. -/
structure DuplicateScanResult where
  data : List (EqKey × List DirEntryStore)
  scanned_files : Nat
  keytype : String
deriving DecidableEq, Repr

/-- `DuplicateScanResult.duplicate_count()`. -/
def DuplicateScanResult.duplicate_count (r : DuplicateScanResult) : Nat :=
  (r.data.map fun g => g.2.length - 1).sum

/-- `DB.find_duplicates(keyfunc)`: group the stored file entries by key,
drop the groups with fewer than two members, and report `len(self.data)`
as the number of scanned files. -/
def DB.find_duplicates (db : DB) (keyfunc : KeyFunc) : DuplicateScanResult :=
  let grouped := db.data.foldl
    (fun acc kv =>
      if kv.2.direntry.is_fileFlag then
        groupInsert acc (DB.make_key kv.2 keyfunc) kv.2.direntry
      else acc) []
  let filtered := grouped.filter fun g => !(decide (g.2.length < 2))
  ⟨filtered, db.data.length, keyfunc.pyName⟩

/-- `scan_duplicates(dataroot, keyfunc, ignore_patterns)`: fresh store,
checksum exactly when the key function is `md5_key`, update then group. -/
def scan_duplicates (fs : FSEntries) (dataroot : String) (keyfunc : KeyFunc)
    (ignore_patterns : List String) : Except PyError DuplicateScanResult :=
  let compute_checksum := keyfunc == KeyFunc.md5_key
  match DB.update ⟨[]⟩ fs dataroot ignore_patterns compute_checksum with
  | Except.error err => Except.error err
  | Except.ok (db, _) => Except.ok (db.find_duplicates keyfunc)

/-- One cached scan as `main` performs it: update the (possibly loaded)
store, then group, returning the new store, the list of hashed paths and
the result. -/
def cached_scan (db : DB) (fs : FSEntries) (dataroot : String)
    (ignore_patterns : List String) (keyfunc : KeyFunc) :
    Except PyError (DB × List String × DuplicateScanResult) :=
  match DB.update db fs dataroot ignore_patterns (keyfunc == KeyFunc.md5_key) with
  | Except.error err => Except.error err
  | Except.ok (db', hashed) => Except.ok (db', hashed, db'.find_duplicates keyfunc)

mutual
/-- Python values as they appear in the serialized cache: strings,
integers, booleans, `None`, lists of integers (as a JSON round trip of a
stat result produces), nested dicts, and raw `os.stat_result` objects
(which `DirEntryStore.to_dict` stores untranslated). -/
inductive PyVal where
  | vStr (s : String)
  | vInt (n : Int)
  | vBool (b : Bool)
  | vNone
  | vStat (st : StatResult)
  | vList (elems : List Int)
  | vDict (fields : PyFields)

/-- The ordered fields of a Python dict value. -/
inductive PyFields where
  | nil
  | cons (key : String) (val : PyVal) (rest : PyFields)
end

/-- The sequence form of an `os.stat_result`: iterating the result (as
`json.dump` does for a tuple subclass, and as `os.stat_result(seq)`
expects) yields its integral fields.  The model keeps the fields pydups
reads — size, modification time, inode — in this fixed order. -/
def statToList (st : StatResult) : List Int :=
  [Int.ofNat st.st_size, st.st_mtime, Int.ofNat st.st_ino]

mutual
/-- The value `json.load` reads back from what `json.dump` wrote:
strings, numbers, booleans and `None` survive unchanged, dicts become
JSON objects and come back as dicts, and an `os.stat_result` — a tuple
subclass — is written as a JSON array of its fields and read back as a
list of integers. -/
def jsonImage : PyVal → PyVal
  | PyVal.vStat st => PyVal.vList (statToList st)
  | PyVal.vDict fields => PyVal.vDict (jsonImageFields fields)
  | v => v

/-- `jsonImage` over the fields of a dict. -/
def jsonImageFields : PyFields → PyFields
  | PyFields.nil => PyFields.nil
  | PyFields.cons k v rest => PyFields.cons k (jsonImage v) (jsonImageFields rest)
end

/-- `DirEntryStore.to_dict()`: note that `statresult` keeps the raw
`os.stat_result` object. -/
def DirEntryStore.to_dict (e : DirEntryStore) : PyVal :=
  PyVal.vDict (PyFields.cons "name" (PyVal.vStr e.name)
    (PyFields.cons "path" (PyVal.vStr e.path)
    (PyFields.cons "is_dir" (PyVal.vBool e.is_dirFlag)
    (PyFields.cons "is_file" (PyVal.vBool e.is_fileFlag)
    (PyFields.cons "is_symlink" (PyVal.vBool e.is_symlinkFlag)
    (PyFields.cons "statresult" (PyVal.vStat e.st) PyFields.nil))))))

/-- `DbEntry.to_dict()`. -/
def DbEntry.to_dict (d : DbEntry) : PyVal :=
  PyVal.vDict (PyFields.cons "direntry" d.direntry.to_dict
    (PyFields.cons "md5"
      (match d.md5 with
       | some s => PyVal.vStr s
       | none => PyVal.vNone) PyFields.nil))

/-- `DB.save(cachefile, fmt)`: the store is exported with `to_dict` and
serialized.  `pickle.dump` persists the object graph as is, and the
matching `pickle.load` reads it back unchanged.  `json.dump` succeeds as
well — every value in the graph is a string, a boolean, `None`, a nested
dict or an `os.stat_result`, and the latter, being a tuple subclass, is
encoded as a JSON array — so the persisted JSON denotes the `jsonImage`
of the graph, which is what the matching `json.load` reads back.  Any
other format name raises a ValueError.  The returned value is the
persisted representation as the matching `load` will see it. -/
def DB.save (db : DB) (fmt : String) : Except PyError (PyDict PyVal) :=
  let cache := db.data.map fun kv => (kv.1, kv.2.to_dict)
  if fmt = "pickle" then Except.ok cache
  else if fmt = "json" then
    Except.ok (cache.map fun kv => (kv.1, jsonImage kv.2))
  else Except.error PyError.valueError

/-- Keyword lookup in a deserialized dict (Python `**` expansion binds
arguments by name). -/
def pyFieldsGet? : PyFields → String → Option PyVal
  | PyFields.nil, _ => none
  | PyFields.cons k v rest, key => if k = key then some v else pyFieldsGet? rest key

/-- `os.stat_result(statresult)`, as `DirEntryStore.__init__` calls it:
it accepts an existing stat result (itself a sequence of its fields) or
the list of integers a JSON round trip produces; anything else raises a
TypeError (`none`). -/
def os_stat_result : PyVal → Option StatResult
  | PyVal.vStat st => some st
  | PyVal.vList [sz, mt, ino] => some ⟨sz.toNat, mt, ino.toNat⟩
  | _ => none

/-- `DirEntryStore(**d)` on a deserialized dict: binds the six keyword
arguments by name and pipes `statresult` through `os.stat_result`; a
missing or ill-typed argument raises a TypeError (`none`). -/
def DirEntryStore.fromDict (v : PyVal) : Option DirEntryStore :=
  match v with
  | PyVal.vDict f =>
      match pyFieldsGet? f "name", pyFieldsGet? f "path", pyFieldsGet? f "is_dir",
          pyFieldsGet? f "is_file", pyFieldsGet? f "is_symlink",
          pyFieldsGet? f "statresult" with
      | some (PyVal.vStr name), some (PyVal.vStr path), some (PyVal.vBool d),
          some (PyVal.vBool fl), some (PyVal.vBool sl), some stv =>
          match os_stat_result stv with
          | some st => some ⟨name, path, d, fl, sl, st⟩
          | none => none
      | _, _, _, _, _, _ => none
  | _ => none

/-- `DbEntry(**val)` on a deserialized entry: the `direntry` dict is
rebuilt into a `DirEntryStore`; `md5` (defaulting to `None` when absent)
is kept as is — a string or `None`. -/
def DbEntry.fromDict (v : PyVal) : Option DbEntry :=
  match v with
  | PyVal.vDict f =>
      match pyFieldsGet? f "direntry" with
      | some dv =>
          match DirEntryStore.fromDict dv with
          | some de =>
              match pyFieldsGet? f "md5" with
              | some (PyVal.vStr s) => some ⟨de, some s⟩
              | some PyVal.vNone => some ⟨de, none⟩
              | none => some ⟨de, none⟩
              | some _ => none
          | none => none
      | none => none
  | _ => none

/-- The `DB.load` loop: `for key, val in cache.items():
self.data[key] = DbEntry(**val)`. -/
def loadLoop : List (String × PyVal) → PyDict DbEntry →
    Except PyError (PyDict DbEntry)
  | [], data => Except.ok data
  | (k, v) :: rest, data =>
      match DbEntry.fromDict v with
      | some e => loadLoop rest (dictInsert data k e)
      | none => Except.error PyError.typeError

/-- `DB.load(cachefile, fmt)`: read the persisted representation (pickle
or JSON) and rebuild every entry into the store; an unknown format name
raises a ValueError. -/
def DB.load (db : DB) (saved : PyDict PyVal) (fmt : String) :
    Except PyError DB :=
  if fmt = "pickle" ∨ fmt = "json" then
    match loadLoop saved db.data with
    | Except.ok data => Except.ok ⟨data⟩
    | Except.error err => Except.error err
  else Except.error PyError.valueError

/-- An object on the flat filesystem the cleaner works on: a regular file
or a symbolic link with its textual target. -/
inductive FsObject where
  | regular (content : List Nat)
  | link (target : String)
deriving DecidableEq, Repr

/-- The flat path-to-object view of the filesystem used by `os.remove` and
`os.symlink`. -/
abbrev FileSystem := PyDict FsObject

/-- Remove the binding of `k`. -/
def dictRemove {α : Type} (d : PyDict α) (k : String) : PyDict α :=
  match d with
  | [] => []
  | (k', v) :: rest => if k' = k then rest else (k', v) :: dictRemove rest k

/-- `os.remove(p)`: missing paths raise a FileNotFoundError. -/
def os_remove (p : String) (fs : FileSystem) : Except PyError FileSystem :=
  if (dictGet? fs p).isSome then Except.ok (dictRemove fs p)
  else Except.error PyError.fileNotFoundError

/-- `os.symlink(target, p)`: creates a new symbolic link at `p`; an
existing path raises a FileExistsError. -/
def os_symlink (target p : String) (fs : FileSystem) : Except PyError FileSystem :=
  if (dictGet? fs p).isSome then Except.error PyError.fileExistsError
  else Except.ok (fs ++ [(p, FsObject.link target)])

/-- Python `str.split` on the slash character. -/
def splitCh : List Char → List (List Char)
  | [] => [[]]
  | c :: rest =>
      if c = '/' then [] :: splitCh rest
      else
        match splitCh rest with
        | [] => [[c]]
        | p :: ps => (c :: p) :: ps

/-- Python `sep.join` with the slash character. -/
def joinCh : List (List Char) → List Char
  | [] => []
  | [p] => p
  | p :: ps => p ++ '/' :: joinCh ps

/-- The `..` path component. -/
def pardirC : List Char := ['.', '.']

/-- The `.` path component. -/
def curdirC : List Char := ['.']

/-- The non-empty slash-separated components of a path, as
`posixpath.relpath` computes them: split on the separator and drop empty
pieces. -/
def partsOf (p : String) : List (List Char) :=
  (splitCh p.data).filter fun c => !c.isEmpty

/-- Length of `os.path.commonprefix` of two component lists. -/
def commonPrefixLen : List (List Char) → List (List Char) → Nat
  | a :: as, b :: bs => if a = b then commonPrefixLen as bs + 1 else 0
  | _, _ => 0

/-- The component list `posixpath.relpath` builds: enough `..` to climb
out of the unshared part of `start`, then the unshared part of `path`.
Both arguments pass through `os.path.abspath`, the identity here. -/
def relParts (path start : String) : List (List Char) :=
  let sl := partsOf (os_path_abspath start)
  let pl := partsOf (os_path_abspath path)
  let i := commonPrefixLen sl pl
  List.replicate (sl.length - i) pardirC ++ pl.drop i

/-- `os.path.relpath(path, start)`: the joined component list, or the
current-directory dot when it is empty. -/
def os_path_relpath (path start : String) : String :=
  let rel := relParts path start
  if rel.isEmpty then "." else String.mk (joinCh rel)

/-- `os.path.dirname(p)`: everything up to the last separator, with
trailing separators stripped unless the head is all separators. -/
def os_path_dirname (p : String) : String :=
  let head := (p.data.reverse.dropWhile fun c => c ≠ '/').reverse
  if !head.isEmpty && head.any (fun c => c ≠ '/') then
    String.mk ((head.reverse.dropWhile fun c => c = '/').reverse)
  else String.mk head

/-- Resolution of a relative-path step sequence against a base directory,
as the operating system resolves a symlink target: `..` pops a component,
`.` is skipped, anything else descends. -/
def applyRel (base rel : List (List Char)) : List (List Char) :=
  rel.foldl
    (fun acc comp =>
      if comp = pardirC then acc.dropLast
      else if comp = curdirC then acc
      else acc ++ [comp]) base

/-- The textual `target` of a symbolic link placed in directory `linkDir`
resolves to the path `dest`. -/
def resolvesTo (linkDir target dest : String) : Prop :=
  applyRel (partsOf linkDir) (partsOf target) = partsOf dest

/-- The module-level `DEBUG` flag (False). -/
def pydupsDEBUG : Bool := false

/-- One removal step of `clean_duplicates`: in debug mode the duplicate is
renamed aside with a `_bak` suffix, otherwise deleted; then, when
requested, a symbolic link to the survivor is created at the removed path,
its target the path of the survivor relative to the duplicate's
directory. -/
def cleanOne (src : DirEntryStore) (replace_with_links : Bool)
    (fs : FileSystem) (dst : DirEntryStore) : Except PyError FileSystem :=
  let removed :=
    if pydupsDEBUG then
      match dictGet? fs dst.path with
      | some obj => Except.ok (dictRemove fs dst.path ++ [(dst.path ++ "_bak", obj)])
      | none => Except.error PyError.fileNotFoundError
    else os_remove dst.path fs
  match removed with
  | Except.error err => Except.error err
  | Except.ok fs1 =>
      if replace_with_links then
        os_symlink (os_path_relpath src.path (os_path_dirname dst.path)) dst.path fs1
      else Except.ok fs1

/-- `clean_duplicates(duplicates, replace_with_links)`: for every group of
at least two members, the first member is kept and each of the others is
removed (groups of fewer than two members are only warned about). -/
def clean_duplicates (duplicates : List (EqKey × List DirEntryStore))
    (replace_with_links : Bool) (fs : FileSystem) : Except PyError FileSystem :=
  duplicates.foldlM
    (fun fsAcc kv =>
      match kv.2 with
      | src :: dst :: rest =>
          (dst :: rest).foldlM (cleanOne src replace_with_links) fsAcc
      | _ => Except.ok fsAcc)
    fs

/-- The keys `DB.update` will store for a walk of `fs` rooted at
`dataroot` when called with `ignore_patterns`: the absolute paths of the
walked entries that are regular files. -/
def walkFileKeys (fs : FSEntries) (dataroot : String)
    (ignore_patterns : List String) : List String :=
  ((scantree fs dataroot (!ignore_patterns.isEmpty) IGNORE_PATTERNS).filter
    fun e => e.isFileNoF).map fun e => os_path_abspath e.path

/-- The stored records that are regular files with no stored hash, in
store order. -/
def hashlessFiles (db : DB) : List DirEntryStore :=
  ((db.data.map fun kv => kv.2).filter
    (fun d => d.direntry.is_fileFlag && d.md5.isNone)).map fun d => d.direntry

/-- An absolute path assembled from slash-free components. -/
def mkAbs (parts : List (List Char)) : String :=
  String.mk ('/' :: joinCh parts)

/-- A plain path component: non-empty, slash-free, and not one of the two
dot components — what the components of a normalised absolute path look
like. -/
def plainComp (c : List Char) : Bool :=
  !c.isEmpty && !c.contains '/' && !(c == curdirC) && !(c == pardirC)

/-- Lookup in an association list keyed by equivalence keys (used to name
the group a key ends up in). -/
def groupGet? (d : List (EqKey × List DirEntryStore)) (k : EqKey) :
    Option (List DirEntryStore) :=
  match d with
  | [] => none
  | (k', v) :: rest => if k' = k then some v else groupGet? rest k

/-- The entry `DB.update` builds for a walked file that is not reused from
the cache: a fresh snapshot, hashed when `checksum` is set. -/
def updNewEntry (checksum : Bool) (e : PyDirEntry) : DbEntry :=
  ⟨DirEntryStore.from_entry e, if checksum then e.content.map md5Hex else none⟩

/-- The dict a cache-less `DB.update` builds over a walked entry list. -/
def updNewData (checksum : Bool) (entries : List PyDirEntry) : PyDict DbEntry :=
  (entries.filter fun e => e.isFileNoF).map fun e =>
    (os_path_abspath e.path, updNewEntry checksum e)

/-- The paths a cache-less `DB.update` hashes over a walked entry list. -/
def updHashedKeys (checksum : Bool) (entries : List PyDirEntry) : List String :=
  if checksum then
    (entries.filter fun e => e.isFileNoF).map fun e => os_path_abspath e.path
  else []

mutual
/-- Size measure on filesystem nodes, for induction over walks. -/
def FSNode.sizeN : FSNode → Nat
  | FSNode.file _ _ => 1
  | FSNode.dir _ cs => cs.sizeN + 1
  | FSNode.symlink _ none => 1
  | FSNode.symlink _ (some t) => t.sizeN + 1

/-- Size measure on directory listings, for induction over walks. -/
def FSEntries.sizeN : FSEntries → Nat
  | FSEntries.nil => 0
  | FSEntries.cons _ node rest => node.sizeN + rest.sizeN + 1
end

theorem noMatchRE_matches_nothing (s : List Char) :
    (MiniRE.matchFrom noMatchRE s 0).isSome = false := by
  cases s with
  | nil => rfl
  | cons c cs =>
      simp only [noMatchRE, MiniRE.matchFrom, List.drop_zero]
      by_cases h : c = '-' <;> simp [h, MiniRE.matchFrom]

/-- Claim C1 (code bug): the duplicate scan does not walk with
`follow_symlinks=false` — `DB.update` passes the pattern tuple in the
positional `follow_symlinks` slot, so with the default (truthy) patterns a
symlink-to-directory is traversed and the file reachable only through it
is stored; and `scantree` itself, even when genuinely called with
`follow_symlinks=false`, yields symbolic-link entries. -/
theorem update_stores_file_reached_through_symlink :
    DB.update ⟨[]⟩
      (FSEntries.cons "link"
        (FSNode.symlink ⟨3, 11, 2⟩ (some (FSNode.dir ⟨0, 5, 9⟩
          (FSEntries.cons "f.txt" (FSNode.file ⟨3, 10, 1⟩ (some [1, 2]))
            FSEntries.nil)))) FSEntries.nil)
      "/r" IGNORE_PATTERNS false =
      Except.ok (⟨[("/r/link/f.txt",
        ⟨⟨"f.txt", "/r/link/f.txt", false, true, false, ⟨3, 10, 1⟩⟩, none⟩)]⟩, []) ∧
    scantree
      (FSEntries.cons "s"
        (FSNode.symlink ⟨9, 1, 7⟩ (some (FSNode.file ⟨4, 2, 8⟩ (some [5]))))
        FSEntries.nil) "/r" false [] =
      [⟨"s", "/r/s", false, false, true, false, true, ⟨4, 2, 8⟩, some [5]⟩] :=
  ⟨rfl, rfl⟩

/-- Claim C2 (code bug): the pattern set passed to the scan is not the one
applied.  `DB.update` hands it to `scantree`'s `follow_symlinks` slot, so
a top-level `data.log` survives a `*.log` ignore list while the unmatched
`.hide` is skipped (by the default patterns); and even a direct `scantree`
call applies the passed set only at the top level, because the recursive
call falls back to the defaults — a depth-one `foo.txt` survives a `foo*`
ignore list. -/
theorem scan_ignores_passed_patterns :
    DB.update ⟨[]⟩
      (FSEntries.cons ".hide" (FSNode.file ⟨1, 1, 1⟩ (some [1]))
        (FSEntries.cons "data.log" (FSNode.file ⟨2, 2, 2⟩ (some [2])) FSEntries.nil))
      "/r" ["*.log"] false =
      Except.ok (⟨[("/r/data.log",
        ⟨⟨"data.log", "/r/data.log", false, true, false, ⟨2, 2, 2⟩⟩, none⟩)]⟩, []) ∧
    scantree
      (FSEntries.cons "d" (FSNode.dir ⟨0, 0, 0⟩
        (FSEntries.cons "foo.txt" (FSNode.file ⟨3, 3, 3⟩ (some [3])) FSEntries.nil))
        FSEntries.nil)
      "/r" false ["foo*"] =
      [⟨"foo.txt", "/r/d/foo.txt", false, false, true, true, false, ⟨3, 3, 3⟩, some [3]⟩] :=
  ⟨rfl, rfl⟩

/-- Claim C5 (code bug): `clean()` with no root does not clear the store —
it calls `self.data.reset()`, a method dicts do not have, and raises an
AttributeError; `clean(root)` does remove exactly the keys with the root
as a prefix. -/
theorem clean_without_root_raises_attributeerror :
    DB.clean ⟨[("/a/x", ⟨⟨"x", "/a/x", false, true, false, ⟨1, 1, 1⟩⟩, none⟩)]⟩ none =
      Except.error PyError.attributeError ∧
    DB.clean ⟨[("/a/x", ⟨⟨"x", "/a/x", false, true, false, ⟨1, 1, 1⟩⟩, none⟩),
               ("/b/y", ⟨⟨"y", "/b/y", false, true, false, ⟨2, 2, 2⟩⟩, none⟩)]⟩
      (some "/a") =
      Except.ok ⟨[("/b/y", ⟨⟨"y", "/b/y", false, true, false, ⟨2, 2, 2⟩⟩, none⟩)]⟩ :=
  ⟨rfl, rfl⟩

/-- Claim C9 (code bug): with an empty pattern set the compiled matcher
(the dash-caret regex) indeed rejects every name, but entries of the tree
are still suppressed: the recursive `scantree` call reverts to the
default patterns, so a hidden file inside a subdirectory never appears in
the yielded sequence. -/
theorem empty_patterns_matcher_rejects_all :
    (∀ name : String, compiledMatcher [] name = false) ∧
    scantree
      (FSEntries.cons "d" (FSNode.dir ⟨0, 0, 0⟩
        (FSEntries.cons ".h" (FSNode.file ⟨1, 1, 1⟩ (some [1])) FSEntries.nil))
        FSEntries.nil)
      "/r" false [] = [] :=
  ⟨fun name => noMatchRE_matches_nothing name.data, rfl⟩

/-- Claim C7: every group `find_duplicates` returns has at least two
members, and `scanned_files` is the number of stored entries. -/
theorem find_duplicates_groups_ge_two (db : DB) (keyfunc : KeyFunc) :
    (∀ g ∈ (db.find_duplicates keyfunc).data, 2 ≤ g.2.length) ∧
    (db.find_duplicates keyfunc).scanned_files = db.data.length := by
  constructor
  · intro g hg
    simp only [DB.find_duplicates] at hg
    have h2 := (List.mem_filter.mp hg).2
    simp only [Bool.not_eq_true', decide_eq_false_iff_not, Nat.not_lt] at h2
    exact h2
  · rfl

theorem find_duplicates_groups_ge_two_witness :
    2 ≤ ((EqKey.kName "x",
      [(⟨"x", "/r/x", false, true, false, ⟨1, 1, 1⟩⟩ : DirEntryStore),
       ⟨"x", "/s/x", false, true, false, ⟨1, 1, 2⟩⟩]) :
        EqKey × List DirEntryStore).2.length :=
  (find_duplicates_groups_ge_two
    ⟨[("/r/x", ⟨⟨"x", "/r/x", false, true, false, ⟨1, 1, 1⟩⟩, none⟩),
      ("/s/x", ⟨⟨"x", "/s/x", false, true, false, ⟨1, 1, 2⟩⟩, none⟩)]⟩
    KeyFunc.name_key).1
    (EqKey.kName "x",
      [⟨"x", "/r/x", false, true, false, ⟨1, 1, 1⟩⟩,
       ⟨"x", "/s/x", false, true, false, ⟨1, 1, 2⟩⟩])
    (by decide)

theorem updateLoop_ioerror :
    ∀ (entries : List PyDirEntry) (data : PyDict DbEntry) (hashed : List String),
      (∃ e ∈ entries, e.isFileNoF = true ∧ e.content = none) →
      updateLoop [] true entries data hashed = Except.error PyError.ioError := by
  intro entries
  induction entries with
  | nil =>
      intro data hashed h
      rcases h with ⟨a, ha, _⟩
      exact absurd ha (List.not_mem_nil a)
  | cons e rest ih =>
      intro data hashed h
      rcases h with ⟨a, ha, hfile, hcontent⟩
      by_cases hf : e.isFileNoF
      · cases hc : e.content with
        | none => simp [updateLoop, hf, dictGet?, md5_key, hc]
        | some bs =>
            have hmem : a ∈ rest := by
              rcases List.mem_cons.mp ha with h1 | h1
              · subst h1; rw [hc] at hcontent; exact absurd hcontent (by simp)
              · exact h1
            simp only [updateLoop, hf, if_true, dictGet?, md5_key, hc]
            exact ih _ _ ⟨a, hmem, hfile, hcontent⟩
      · have hmem : a ∈ rest := by
          rcases List.mem_cons.mp ha with h1 | h1
          · subst h1; exact absurd hfile (by simpa using hf)
          · exact h1
        simp only [updateLoop, hf, if_false]
        exact ih _ _ ⟨a, hmem, hfile, hcontent⟩

/-- Claim C6 (corrected): an IOError raised while content-hashing a walked
file is not caught anywhere in `DB.update`: a fresh content-hash scan
(empty store, checksum requested) aborts with the IOError instead of
excluding the affected file and completing for the rest. -/
theorem update_aborts_on_hash_ioerror (fs : FSEntries) (root : String)
    (pats : List String) (e : PyDirEntry)
    (he : e ∈ scantree fs root (!pats.isEmpty) IGNORE_PATTERNS)
    (hfile : e.isFileNoF = true) (hcontent : e.content = none) :
    DB.update ⟨[]⟩ fs root pats true = Except.error PyError.ioError := by
  have h := updateLoop_ioerror (scantree fs root (!pats.isEmpty) IGNORE_PATTERNS) [] []
    ⟨e, he, hfile, hcontent⟩
  simp only [DB.update, h]

theorem update_aborts_on_hash_ioerror_witness :
    DB.update ⟨[]⟩
      (FSEntries.cons "b.txt" (FSNode.file ⟨1, 1, 1⟩ none) FSEntries.nil)
      "/q" [] true = Except.error PyError.ioError :=
  update_aborts_on_hash_ioerror _ _ _
    ⟨"b.txt", "/q/b.txt", false, false, true, true, false, ⟨1, 1, 1⟩, none⟩
    (by decide) rfl rfl

theorem update_hash_ioerror_counterexample :
    DB.update ⟨[]⟩
      (FSEntries.cons "bad.txt" (FSNode.file ⟨1, 1, 1⟩ none)
        (FSEntries.cons "good.txt" (FSNode.file ⟨2, 2, 2⟩ (some [7])) FSEntries.nil))
      "/r" IGNORE_PATTERNS true = Except.error PyError.ioError := rfl

theorem groupGet?_groupInsert (d : List (EqKey × List DirEntryStore))
    (k : EqKey) (e : DirEntryStore) (k' : EqKey) :
    groupGet? (groupInsert d k e) k' =
      if k' = k then some ((groupGet? d k).getD [] ++ [e]) else groupGet? d k' := by
  induction d with
  | nil =>
      by_cases h : k' = k
      · subst h; simp [groupInsert, groupGet?]
      · have h2 : ¬k = k' := fun hh => h hh.symm
        simp [groupInsert, groupGet?, h, h2]
  | cons kv rest ih =>
      obtain ⟨k₀, v⟩ := kv
      by_cases h0 : k₀ = k
      · subst h0
        by_cases h : k' = k₀
        · subst h; simp [groupInsert, groupGet?]
        · have h2 : ¬k₀ = k' := fun hh => h hh.symm
          simp [groupInsert, groupGet?, h, h2]
      · by_cases h : k' = k₀
        · subst h
          simp [groupInsert, groupGet?, h0]
        · have h2 : ¬k₀ = k' := fun hh => h hh.symm
          simp [groupInsert, groupGet?, h0, h, h2, ih]

theorem groupGet?_mem (d : List (EqKey × List DirEntryStore)) (k : EqKey)
    (g : List DirEntryStore) (h : groupGet? d k = some g) : (k, g) ∈ d := by
  induction d with
  | nil => simp [groupGet?] at h
  | cons kv rest ih =>
      obtain ⟨k₀, v⟩ := kv
      by_cases h0 : k₀ = k
      · subst h0
        simp [groupGet?] at h
        subst h
        exact List.mem_cons_self _ _
      · simp [groupGet?, h0] at h
        exact List.mem_cons_of_mem _ (ih h)

theorem groupGet?_fold (keyfunc : KeyFunc) (K : EqKey) :
    ∀ (data : PyDict DbEntry) (acc : List (EqKey × List DirEntryStore)),
      groupGet?
        (data.foldl (fun acc kv =>
          if kv.2.direntry.is_fileFlag then
            groupInsert acc (DB.make_key kv.2 keyfunc) kv.2.direntry
          else acc) acc) K =
      (match groupGet? acc K with
       | some g => some (g ++
          ((data.filter fun kv => kv.2.direntry.is_fileFlag &&
            (DB.make_key kv.2 keyfunc == K)).map fun kv => kv.2.direntry))
       | none =>
          if ((data.filter fun kv => kv.2.direntry.is_fileFlag &&
              (DB.make_key kv.2 keyfunc == K)).map fun kv => kv.2.direntry) = [] then
            none
          else
            some ((data.filter fun kv => kv.2.direntry.is_fileFlag &&
              (DB.make_key kv.2 keyfunc == K)).map fun kv => kv.2.direntry)) := by
  intro data
  induction data with
  | nil =>
      intro acc
      cases hacc : groupGet? acc K <;> simp [hacc]
  | cons kv rest ih =>
      intro acc
      by_cases hfile : kv.2.direntry.is_fileFlag
      · by_cases hkey : DB.make_key kv.2 keyfunc = K
        · have hbeq : (DB.make_key kv.2 keyfunc == K) = true := by
            simp [hkey]
          simp only [List.foldl_cons, hfile, if_true, List.filter_cons, hbeq,
            Bool.and_true, Bool.true_and, if_true, List.map_cons]
          rw [ih, groupGet?_groupInsert]
          rw [hkey]
          simp only [if_pos rfl]
          cases hacc : groupGet? acc K <;> simp [hacc]
        · have hcond : (kv.2.direntry.is_fileFlag &&
              (DB.make_key kv.2 keyfunc == K)) = false := by
            simp [hkey]
          simp only [List.foldl_cons, List.filter_cons, hcond, Bool.false_eq_true,
            if_false]
          rw [if_pos hfile, ih, groupGet?_groupInsert]
          have h2 : ¬K = DB.make_key kv.2 keyfunc := fun hh => hkey hh.symm
          rw [if_neg h2]
      · have hbeq : (kv.2.direntry.is_fileFlag &&
            (DB.make_key kv.2 keyfunc == K)) = false := by
          simp [hfile]
        simp only [List.foldl_cons, hfile, if_false, List.filter_cons, hbeq]
        exact ih acc

theorem filter_map_snd {β : Type} (p : DbEntry → Bool) (f : DbEntry → β) :
    ∀ (l : PyDict DbEntry),
      ((l.filter fun kv => p kv.2).map fun kv => f kv.2) =
        ((l.map fun kv => kv.2).filter p).map f := by
  intro l
  induction l with
  | nil => rfl
  | cons kv rest ih =>
      by_cases h : p kv.2 <;> simp [List.filter_cons, h, ih]

/-- Claim C10: with the content-hash key function, `find_duplicates` keys
every entry by the hash stored in the scan store (never recomputed from
content), so all stored file entries whose hash is absent share the `None`
key, and whenever at least two such entries exist they form a reported
group. -/
theorem md5_grouping_uses_stored_hash (db : DB) :
    (∀ dbe : DbEntry, DB.make_key dbe KeyFunc.md5_key = EqKey.kMd5 dbe.md5) ∧
    (2 ≤ (hashlessFiles db).length →
      (EqKey.kMd5 none, hashlessFiles db) ∈
        (db.find_duplicates KeyFunc.md5_key).data) := by
  refine ⟨fun dbe => rfl, fun hlen => ?_⟩
  have hfun : (fun kv : String × DbEntry => kv.2.direntry.is_fileFlag &&
      (DB.make_key kv.2 KeyFunc.md5_key == EqKey.kMd5 none)) =
      (fun kv : String × DbEntry =>
        kv.2.direntry.is_fileFlag && kv.2.md5.isNone) := by
    funext kv
    cases h : kv.2.md5 <;> simp [DB.make_key, h]
  have hsel : ((db.data.filter fun kv => kv.2.direntry.is_fileFlag &&
        (DB.make_key kv.2 KeyFunc.md5_key == EqKey.kMd5 none)).map
        fun kv => kv.2.direntry) = hashlessFiles db := by
    rw [hfun]
    exact filter_map_snd
      (fun d => d.direntry.is_fileFlag && d.md5.isNone) (fun d => d.direntry) db.data
  have hne : hashlessFiles db ≠ [] := by
    intro hnil
    rw [hnil] at hlen
    simp at hlen
  have hget := groupGet?_fold KeyFunc.md5_key (EqKey.kMd5 none) db.data []
  rw [hsel] at hget
  simp only [groupGet?, if_neg hne] at hget
  have hmem := groupGet?_mem _ _ _ hget
  simp only [DB.find_duplicates]
  apply List.mem_filter.mpr
  refine ⟨hmem, ?_⟩
  simp only [Bool.not_eq_true', decide_eq_false_iff_not, Nat.not_lt]
  exact hlen

theorem md5_grouping_uses_stored_hash_witness :
    (EqKey.kMd5 none,
      hashlessFiles ⟨[("/r/a", ⟨⟨"a", "/r/a", false, true, false, ⟨1, 1, 1⟩⟩, none⟩),
                      ("/r/b", ⟨⟨"b", "/r/b", false, true, false, ⟨1, 1, 2⟩⟩, none⟩)]⟩) ∈
      (DB.find_duplicates
        ⟨[("/r/a", ⟨⟨"a", "/r/a", false, true, false, ⟨1, 1, 1⟩⟩, none⟩),
          ("/r/b", ⟨⟨"b", "/r/b", false, true, false, ⟨1, 1, 2⟩⟩, none⟩)]⟩
        KeyFunc.md5_key).data :=
  (md5_grouping_uses_stored_hash
    ⟨[("/r/a", ⟨⟨"a", "/r/a", false, true, false, ⟨1, 1, 1⟩⟩, none⟩),
      ("/r/b", ⟨⟨"b", "/r/b", false, true, false, ⟨1, 1, 2⟩⟩, none⟩)]⟩).2
    (by decide)

theorem listStarts_append (l t : List Char) : listStarts l (l ++ t) = true := by
  induction l with
  | nil => rfl
  | cons c cs ih => simp [listStarts, ih]

theorem listStarts_trans :
    ∀ (a b c : List Char), listStarts a b = true → listStarts b c = true →
      listStarts a c = true := by
  intro a
  induction a with
  | nil => intro b c _ _; rfl
  | cons x xs ih =>
      intro b c hab hbc
      cases b with
      | nil => simp [listStarts] at hab
      | cons y ys =>
          cases c with
          | nil => simp [listStarts] at hbc
          | cons z zs =>
              simp only [listStarts, Bool.and_eq_true, beq_iff_eq] at hab hbc ⊢
              exact ⟨hab.1.trans hbc.1, ih ys zs hab.2 hbc.2⟩

theorem py_startswith_extend (s p n : String)
    (h : py_startswith s (p ++ "/" ++ n) = true) : py_startswith s p = true := by
  unfold py_startswith at h ⊢
  apply listStarts_trans p.data (p ++ "/" ++ n).data s.data ?_ h
  rw [String.data_append, String.data_append]
  rw [List.append_assoc]
  exact listStarts_append p.data _

theorem mkEntry_path (parent name : String) (node : FSNode) :
    (mkEntry parent name node).path = parent ++ "/" ++ name := by
  cases node with
  | file st c => rfl
  | dir st cs => rfl
  | symlink st t =>
      cases t with
      | none => rfl
      | some n2 => cases n2 <;> rfl

theorem py_startswith_child (path name : String) :
    py_startswith (path ++ "/" ++ name) path = true := by
  unfold py_startswith
  rw [String.data_append, String.data_append, List.append_assoc]
  exact listStarts_append path.data _

theorem scanChildren_starts :
    ∀ (n : Nat) (cs : FSEntries), cs.sizeN ≤ n →
      ∀ (path : String) (follow : Bool) (pats : List String) (e : PyDirEntry),
        e ∈ scanChildren cs path follow pats → py_startswith e.path path = true := by
  intro n
  induction n with
  | zero =>
      intro cs hsz path follow pats e he
      cases cs with
      | nil => simp [scanChildren] at he
      | cons name node rest => simp [FSEntries.sizeN] at hsz
  | succ n ih =>
      intro cs hsz path follow pats e he
      cases cs with
      | nil => simp [scanChildren] at he
      | cons name node rest =>
          have hsz' : node.sizeN + rest.sizeN + 1 ≤ n + 1 := by
            simpa [FSEntries.sizeN] using hsz
          rw [scanChildren] at he
          rcases List.mem_append.mp he with hin | hin
          · by_cases hm : compiledMatcher pats name
            · rw [if_pos hm] at hin
              simp at hin
            · rw [if_neg hm] at hin
              cases node with
              | file st c =>
                  simp only [scanEntryNode, List.mem_singleton] at hin
                  subst hin
                  rw [mkEntry_path]
                  exact py_startswith_child path name
              | dir st cs' =>
                  simp only [scanEntryNode] at hin
                  have hstep := ih cs' (by
                    simp only [FSNode.sizeN] at hsz'
                    omega) (path ++ "/" ++ name) follow IGNORE_PATTERNS e hin
                  exact py_startswith_extend _ _ _ hstep
              | symlink st t =>
                  cases t with
                  | none =>
                      simp only [scanEntryNode, List.mem_singleton] at hin
                      subst hin
                      rw [mkEntry_path]
                      exact py_startswith_child path name
                  | some n2 =>
                      cases n2 with
                      | dir st' cs' =>
                          simp only [scanEntryNode] at hin
                          by_cases hfollow : follow
                          · rw [if_pos hfollow] at hin
                            have hstep := ih cs' (by
                              simp only [FSNode.sizeN] at hsz'
                              omega) (path ++ "/" ++ name) follow IGNORE_PATTERNS e hin
                            exact py_startswith_extend _ _ _ hstep
                          · rw [if_neg hfollow] at hin
                            rcases List.mem_singleton.mp hin with rfl
                            rw [mkEntry_path]
                            exact py_startswith_child path name
                      | file st' c =>
                          simp only [scanEntryNode, List.mem_singleton] at hin
                          subst hin
                          rw [mkEntry_path]
                          exact py_startswith_child path name
                      | symlink st' t' =>
                          simp only [scanEntryNode, List.mem_singleton] at hin
                          subst hin
                          rw [mkEntry_path]
                          exact py_startswith_child path name
          · exact ih rest (by omega) path follow pats e hin

theorem dictGet?_append_some {α : Type} (d d2 : PyDict α) (k : String) (v : α)
    (h : dictGet? d k = some v) : dictGet? (d ++ d2) k = some v := by
  induction d with
  | nil => simp [dictGet?] at h
  | cons kv rest ih =>
      by_cases hk : kv.1 = k
      · simpa [dictGet?, hk] using h
      · rw [List.cons_append]
        simp only [dictGet?, hk, if_false] at h ⊢
        exact ih h

theorem dictGet?_append_none {α : Type} (d d2 : PyDict α) (k : String)
    (h : dictGet? d k = none) : dictGet? (d ++ d2) k = dictGet? d2 k := by
  induction d with
  | nil => rfl
  | cons kv rest ih =>
      by_cases hk : kv.1 = k
      · simp [dictGet?, hk] at h
      · rw [List.cons_append]
        simp only [dictGet?, hk, if_false] at h ⊢
        exact ih h

theorem dictInsert_fresh {α : Type} (d : PyDict α) (k : String) (v : α)
    (h : dictGet? d k = none) : dictInsert d k v = d ++ [(k, v)] := by
  induction d with
  | nil => rfl
  | cons kv rest ih =>
      by_cases hk : kv.1 = k
      · simp [dictGet?, hk] at h
      · simp only [dictGet?, hk, if_false] at h
        obtain ⟨k', v'⟩ := kv
        simp only [dictInsert]
        rw [if_neg hk, ih h, List.cons_append]

theorem dictGet?_map_of_mem {β α : Type} (key : β → String) (f : β → α) :
    ∀ (l : List β) (a : β), a ∈ l → (l.map key).Nodup →
      dictGet? (l.map fun x => (key x, f x)) (key a) = some (f a) := by
  intro l
  induction l with
  | nil => intro a ha; cases ha
  | cons x rest ih =>
      intro a ha hnd
      rcases List.mem_cons.mp ha with rfl | hmem
      · simp [dictGet?]
      · have hne : key x ≠ key a := by
          intro hp
          exact (List.nodup_cons.mp hnd).1 (hp ▸ List.mem_map_of_mem key hmem)
        simp only [List.map_cons, dictGet?, hne, if_false]
        exact ih a hmem (List.nodup_cons.mp hnd).2

theorem dictUpdate_fresh {α : Type} :
    ∀ (l acc : PyDict α), (∀ kv ∈ l, dictGet? acc kv.1 = none) →
      (l.map fun kv => kv.1).Nodup → dictUpdate acc l = acc ++ l := by
  intro l
  induction l with
  | nil => intro acc _ _; simp [dictUpdate]
  | cons kv rest ih =>
      intro acc hfresh hnd
      have h1 : dictGet? acc kv.1 = none := hfresh kv (List.mem_cons_self _ _)
      have hstep : dictUpdate acc (kv :: rest) =
          dictUpdate (dictInsert acc kv.1 kv.2) rest := by
        simp [dictUpdate]
      rw [hstep, dictInsert_fresh _ _ _ h1]
      have hfresh' : ∀ kv' ∈ rest, dictGet? (acc ++ [(kv.1, kv.2)]) kv'.1 = none := by
        intro kv' hmem
        have hne : kv.1 ≠ kv'.1 := by
          intro hp
          apply (List.nodup_cons.mp hnd).1
          have hmm : kv'.1 ∈ List.map (fun kv => kv.1) rest :=
            List.mem_map_of_mem (fun kv => kv.1) hmem
          simpa [hp] using hmm
        rw [dictGet?_append_none _ _ _ (hfresh kv' (List.mem_cons_of_mem _ hmem))]
        simp [dictGet?, hne]
      rw [ih _ hfresh' (List.nodup_cons.mp hnd).2]
      rw [List.append_assoc]
      rfl

theorem updNewData_eq (b : Bool) (entries : List PyDirEntry) :
    updNewData b entries =
      (entries.filter fun e => e.isFileNoF).map fun e => (e.path, updNewEntry b e) := rfl

theorem updHashedKeys_eq (b : Bool) (entries : List PyDirEntry) :
    updHashedKeys b entries =
      if b then (entries.filter fun e => e.isFileNoF).map fun e => e.path else [] := rfl

theorem updateLoop_cons_skip (cache : PyDict DbEntry) (b : Bool) (x : PyDirEntry)
    (E : List PyDirEntry) (data : PyDict DbEntry) (hashed : List String)
    (hxf : x.isFileNoF = false) :
    updateLoop cache b (x :: E) data hashed = updateLoop cache b E data hashed := by
  simp only [updateLoop, hxf, Bool.false_eq_true, if_false]

theorem updateLoop_cons_miss (cache : PyDict DbEntry) (b : Bool) (x : PyDirEntry)
    (E : List PyDirEntry) (data : PyDict DbEntry) (hashed : List String)
    (hxf : x.isFileNoF = true) (hmiss : dictGet? cache x.path = none) :
    updateLoop cache b (x :: E) data hashed =
      (if b then
        match md5_key x.content with
        | Except.error err => Except.error err
        | Except.ok h =>
            updateLoop cache b E
              (dictInsert data x.path ⟨DirEntryStore.from_entry x, some h⟩)
              (hashed ++ [x.path])
       else
        updateLoop cache b E
          (dictInsert data x.path ⟨DirEntryStore.from_entry x, none⟩) hashed) := by
  have hkey : os_path_abspath (DirEntryStore.from_entry x).path = x.path := rfl
  simp only [updateLoop, hxf, if_true, hkey, hmiss]

theorem updateLoop_cons_reuse (cache : PyDict DbEntry) (b : Bool) (x : PyDirEntry)
    (E : List PyDirEntry) (data : PyDict DbEntry) (hashed : List String)
    (ce : DbEntry) (hxf : x.isFileNoF = true)
    (hhit : dictGet? cache x.path = some ce)
    (heq : DirEntryStore.pyEq (DirEntryStore.from_entry x) ce.direntry = true)
    (hcond : ((b && ce.md5.isSome) || !b) = true) :
    updateLoop cache b (x :: E) data hashed =
      updateLoop cache b E (dictInsert data x.path ce) hashed := by
  have hkey : os_path_abspath (DirEntryStore.from_entry x).path = x.path := rfl
  simp only [updateLoop, hxf, if_true, hkey, hhit, heq, hcond, Bool.and_self,
    eq_self_iff_true]

theorem pyEq_self (e : DirEntryStore) : DirEntryStore.pyEq e e = true := by
  simp [DirEntryStore.pyEq]

/-- `DB.save` in the pickle format returns the `to_dict` export of the
store unchanged. -/
theorem DB_save_pickle (db : DB) :
    DB.save db "pickle" =
      Except.ok (db.data.map fun kv => (kv.1, DbEntry.to_dict kv.2)) := rfl

/-- `DB.save` in the JSON format returns the JSON image of the `to_dict`
export of the store. -/
theorem DB_save_json (db : DB) :
    DB.save db "json" =
      Except.ok (db.data.map fun kv => (kv.1, jsonImage (DbEntry.to_dict kv.2))) := by
  show Except.ok ((db.data.map fun kv => (kv.1, DbEntry.to_dict kv.2)).map
      fun kv => (kv.1, jsonImage kv.2)) = _
  rw [List.map_map]
  rfl

/-- Rebuilding an entry from its `to_dict` export (the pickle path, where
the object graph survives unchanged) recovers the entry exactly. -/
theorem fromDict_to_dict (e : DbEntry) :
    DbEntry.fromDict (DbEntry.to_dict e) = some e := by
  obtain ⟨⟨n, p, d, f, s, st⟩, m⟩ := e
  cases m <;> rfl

/-- Rebuilding an entry from the JSON image of its `to_dict` export (the
stat result now a list of integers) also recovers the entry exactly:
`os.stat_result` accepts the list back. -/
theorem fromDict_jsonImage_to_dict (e : DbEntry) :
    DbEntry.fromDict (jsonImage (DbEntry.to_dict e)) = some e := by
  obtain ⟨⟨n, p, d, f, s, ⟨sz, mt, ino⟩⟩, m⟩ := e
  cases m <;> rfl

/-- The load loop over a serialized image of a store: if deserializing
each value recovers the original entry, the loop succeeds and appends
every binding (keys fresh and pairwise distinct, as map keys are). -/
theorem loadLoop_map (g : DbEntry → PyVal)
    (hg : ∀ v : DbEntry, DbEntry.fromDict (g v) = some v)
    (l : List (String × DbEntry)) :
    ∀ data : PyDict DbEntry,
      (∀ kv ∈ l, dictGet? data kv.1 = none) →
      (l.map fun kv => kv.1).Nodup →
      loadLoop (l.map fun kv => (kv.1, g kv.2)) data = Except.ok (data ++ l) := by
  induction l with
  | nil =>
      intro data _ _
      simp [loadLoop]
  | cons kv rest ih =>
      intro data hfresh hnd
      obtain ⟨k, v⟩ := kv
      simp only [List.map_cons, List.nodup_cons] at hnd
      show loadLoop ((k, g v) :: rest.map fun kv => (kv.1, g kv.2)) data = _
      simp only [loadLoop, hg v]
      rw [dictInsert_fresh _ _ _ (hfresh (k, v) (List.mem_cons_self _ _))]
      have hfresh2 : ∀ kv2 ∈ rest, dictGet? (data ++ [(k, v)]) kv2.1 = none := by
        intro kv2 hmem
        have hne : kv2.1 ≠ k := by
          intro heq
          have hmm := List.mem_map_of_mem (fun kv : String × DbEntry => kv.1) hmem
          simp only [heq] at hmm
          exact hnd.1 hmm
        rw [dictGet?_append_none _ _ _ (hfresh kv2 (List.mem_cons_of_mem _ hmem))]
        simp only [dictGet?]
        rw [if_neg (fun h => hne h.symm)]
      rw [ih (data ++ [(k, v)]) hfresh2 hnd.2]
      simp

/-- In a dict with pairwise-distinct keys, lookup of a stored binding
finds exactly its value. -/
theorem dictGet?_of_mem_nodup {α : Type} (d : PyDict α) :
    ∀ kv ∈ d, (d.map fun x => x.1).Nodup → dictGet? d kv.1 = some kv.2 := by
  induction d with
  | nil =>
      intro kv h
      simp at h
  | cons p rest ih =>
      intro kv hmem hnd
      simp only [List.map_cons, List.nodup_cons] at hnd
      rcases List.mem_cons.mp hmem with heq | hmem2
      · subst heq
        simp [dictGet?]
      · have hmm := List.mem_map_of_mem (fun x : String × α => x.1) hmem2
        have hne : p.1 ≠ kv.1 := by
          intro heq
          rw [heq] at hnd
          exact hnd.1 hmm
        simp only [dictGet?]
        rw [if_neg hne]
        exact ih kv hmem2 hnd.2

/-- Evaluating `DB.load` on an empty store for a supported format
reduces to the load loop. -/
theorem DB_load_eval (saved : PyDict PyVal) (fmt : String)
    (hfmt : fmt = "pickle" ∨ fmt = "json") (data : PyDict DbEntry)
    (h : loadLoop saved [] = Except.ok data) :
    DB.load ⟨[]⟩ saved fmt = Except.ok ⟨data⟩ := by
  simp only [DB.load, if_pos hfmt]
  rw [h]

/-- Claim C4: for every store (with pairwise-distinct keys, as a real
dict has) and each supported format — pickle and JSON — `save` followed
by `load` succeeds and reproduces, for every stored path, a record
pyEq-equal (same name, path, type flags, size, modification time) to the
one before saving, with the stored md5 hash preserved exactly.  The JSON
path works because `os.stat_result` is a tuple subclass: `json.dump`
writes it as an array, and `load` rebuilds it through `os.stat_result`
inside `DirEntryStore.__init__`. -/
theorem save_load_round_trip (db : DB) (fmt : String)
    (hfmt : fmt = "pickle" ∨ fmt = "json")
    (hnd : (db.data.map fun kv => kv.1).Nodup) :
    ∃ saved db2, DB.save db fmt = Except.ok saved ∧
      DB.load ⟨[]⟩ saved fmt = Except.ok db2 ∧
      ∀ kv ∈ db.data, ∃ e2, dictGet? db2.data kv.1 = some e2 ∧
        DirEntryStore.pyEq kv.2.direntry e2.direntry = true ∧
        e2.md5 = kv.2.md5 := by
  rcases hfmt with hf | hf
  · subst hf
    refine ⟨db.data.map fun kv => (kv.1, DbEntry.to_dict kv.2), ⟨db.data⟩,
      DB_save_pickle db, ?_, ?_⟩
    · have hload := loadLoop_map DbEntry.to_dict fromDict_to_dict db.data []
        (fun _ _ => rfl) hnd
      apply DB_load_eval _ _ (Or.inl rfl)
      simpa using hload
    · intro kv hmem
      exact ⟨kv.2, dictGet?_of_mem_nodup db.data kv hmem hnd, pyEq_self _, rfl⟩
  · subst hf
    refine ⟨db.data.map fun kv => (kv.1, jsonImage (DbEntry.to_dict kv.2)), ⟨db.data⟩,
      DB_save_json db, ?_, ?_⟩
    · have hload := loadLoop_map (fun v => jsonImage (DbEntry.to_dict v))
        (fun v => fromDict_jsonImage_to_dict v) db.data []
        (fun _ _ => rfl) hnd
      apply DB_load_eval _ _ (Or.inr rfl)
      simpa using hload
    · intro kv hmem
      exact ⟨kv.2, dictGet?_of_mem_nodup db.data kv hmem hnd, pyEq_self _, rfl⟩

/-- Witness: the round trip through the JSON format on a one-entry store
holding a hash. -/
theorem save_load_round_trip_witness :
    ∃ saved db2,
      DB.save ⟨[("/r/a.txt",
        ⟨⟨"a.txt", "/r/a.txt", false, true, false, ⟨3, 10, 1⟩⟩, some "h"⟩)]⟩ "json" =
        Except.ok saved ∧
      DB.load ⟨[]⟩ saved "json" = Except.ok db2 ∧
      ∀ kv ∈ (⟨[("/r/a.txt",
        ⟨⟨"a.txt", "/r/a.txt", false, true, false, ⟨3, 10, 1⟩⟩, some "h"⟩)]⟩ : DB).data,
        ∃ e2, dictGet? db2.data kv.1 = some e2 ∧
          DirEntryStore.pyEq kv.2.direntry e2.direntry = true ∧
          e2.md5 = kv.2.md5 :=
  save_load_round_trip
    ⟨[("/r/a.txt",
      ⟨⟨"a.txt", "/r/a.txt", false, true, false, ⟨3, 10, 1⟩⟩, some "h"⟩)]⟩
    "json" (Or.inr rfl) (by decide)

theorem updateLoop_ok_content :
    ∀ (entries : List PyDirEntry) (data : PyDict DbEntry) (hashed : List String)
      (out : PyDict DbEntry × List String),
      updateLoop [] true entries data hashed = Except.ok out →
      ∀ e ∈ entries, e.isFileNoF = true → e.content ≠ none := by
  intro entries
  induction entries with
  | nil =>
      intro data hashed out _ e he
      exact absurd he (List.not_mem_nil e)
  | cons x rest ih =>
      intro data hashed out hok e he hfile
      by_cases hxf : x.isFileNoF
      · rw [updateLoop_cons_miss [] true x rest data hashed hxf rfl] at hok
        cases hc : x.content with
        | none =>
            rw [hc] at hok
            simp [md5_key] at hok
        | some bs =>
            rw [hc] at hok
            simp only [md5_key, eq_self_iff_true, if_true] at hok
            rcases List.mem_cons.mp he with rfl | hmem
            · simp [hc]
            · exact ih _ _ _ hok e hmem hfile
      · rw [updateLoop_cons_skip [] true x rest data hashed (by simpa using hxf)] at hok
        rcases List.mem_cons.mp he with rfl | hmem
        · exact absurd hfile (by simpa using hxf)
        · exact ih _ _ _ hok e hmem hfile

theorem updHashedKeys_true (entries : List PyDirEntry) :
    updHashedKeys true entries =
      (entries.filter fun e => e.isFileNoF).map fun e => e.path := rfl

theorem updHashedKeys_false (entries : List PyDirEntry) :
    updHashedKeys false entries = [] := rfl

theorem updateLoop_fresh (b : Bool) :
    ∀ (entries : List PyDirEntry) (data : PyDict DbEntry) (hashed : List String),
      ((entries.filter fun e => e.isFileNoF).map fun e => e.path).Nodup →
      (∀ e ∈ entries, e.isFileNoF = true → dictGet? data e.path = none) →
      (b = true → ∀ e ∈ entries, e.isFileNoF = true → e.content ≠ none) →
      updateLoop [] b entries data hashed =
        Except.ok (data ++ updNewData b entries, hashed ++ updHashedKeys b entries) := by
  intro entries
  induction entries with
  | nil =>
      intro data hashed _ _ _
      simp [updateLoop, updNewData, updHashedKeys]
  | cons x rest ih =>
      intro data hashed hnd hfresh hok
      by_cases hxf : x.isFileNoF
      · have hfilter : (x :: rest).filter (fun e => e.isFileNoF) =
            x :: rest.filter (fun e => e.isFileNoF) :=
          List.filter_cons_of_pos hxf
        have hnd2 : (x.path ::
            ((rest.filter fun e => e.isFileNoF).map fun e => e.path)).Nodup := by
          rw [hfilter] at hnd
          simpa using hnd
        have hxnotin := (List.nodup_cons.mp hnd2).1
        have hndrest := (List.nodup_cons.mp hnd2).2
        have hfreshx := hfresh x (List.mem_cons_self _ _) hxf
        have hfresh' : ∀ e ∈ rest, e.isFileNoF = true →
            dictGet? (data ++ [(x.path, updNewEntry b x)]) e.path = none := by
          intro e hm hf
          have hne : x.path ≠ e.path := by
            intro hp
            apply hxnotin
            rw [hp]
            exact List.mem_map_of_mem _ (List.mem_filter.mpr ⟨hm, hf⟩)
          rw [dictGet?_append_none _ _ _ (hfresh e (List.mem_cons_of_mem _ hm) hf)]
          simp [dictGet?, hne]
        have hok' : b = true → ∀ e ∈ rest, e.isFileNoF = true → e.content ≠ none :=
          fun hb e hm hf => hok hb e (List.mem_cons_of_mem _ hm) hf
        have hnewdata : updNewData b (x :: rest) =
            (x.path, updNewEntry b x) :: updNewData b rest := by
          rw [updNewData_eq, hfilter, List.map_cons, ← updNewData_eq]
        rw [updateLoop_cons_miss [] b x rest data hashed hxf rfl]
        rcases Bool.eq_false_or_eq_true b with hb | hb
        · subst hb
          have hcx := hok rfl x (List.mem_cons_self _ _) hxf
          cases hc : x.content with
          | none => exact absurd hc hcx
          | some bs =>
              simp only [md5_key, eq_self_iff_true, if_true]
              rw [dictInsert_fresh _ _ _ hfreshx]
              have hval : (⟨DirEntryStore.from_entry x, some (md5Hex bs)⟩ : DbEntry) =
                  updNewEntry true x := by
                simp [updNewEntry, hc]
              rw [hval]
              rw [ih _ _ hndrest hfresh' hok']
              rw [hnewdata]
              simp only [updHashedKeys_true]
              rw [hfilter, List.map_cons]
              rw [← List.append_cons, ← List.append_cons]
        · subst hb
          simp only [Bool.false_eq_true, if_false]
          rw [dictInsert_fresh _ _ _ hfreshx]
          have hval : (⟨DirEntryStore.from_entry x, none⟩ : DbEntry) =
              updNewEntry false x := by
            simp [updNewEntry]
          rw [hval]
          rw [ih _ hashed hndrest hfresh' hok']
          rw [hnewdata]
          simp only [updHashedKeys_false, List.append_nil]
          rw [← List.append_cons]
      · have hxf' : x.isFileNoF = false := by simpa using hxf
        rw [updateLoop_cons_skip [] b x rest data hashed hxf']
        have hfilter : (x :: rest).filter (fun e => e.isFileNoF) =
            rest.filter (fun e => e.isFileNoF) :=
          List.filter_cons_of_neg (by simp [hxf'])
        have hnd' : ((rest.filter fun e => e.isFileNoF).map fun e => e.path).Nodup := by
          rw [hfilter] at hnd
          exact hnd
        have hnewdata : updNewData b (x :: rest) = updNewData b rest := by
          rw [updNewData_eq, hfilter, ← updNewData_eq]
        have hnewhash : updHashedKeys b (x :: rest) = updHashedKeys b rest := by
          rw [updHashedKeys_eq, hfilter, ← updHashedKeys_eq]
        rw [ih data hashed hnd'
          (fun e hm hf => hfresh e (List.mem_cons_of_mem _ hm) hf)
          (fun hb e hm hf => hok hb e (List.mem_cons_of_mem _ hm) hf)]
        rw [hnewdata, hnewhash]

theorem updateLoop_cached (b : Bool) :
    ∀ (entries : List PyDirEntry) (cache data : PyDict DbEntry) (hashed : List String),
      ((entries.filter fun e => e.isFileNoF).map fun e => e.path).Nodup →
      (∀ e ∈ entries, e.isFileNoF = true → dictGet? data e.path = none) →
      (∀ e ∈ entries, e.isFileNoF = true →
        dictGet? cache e.path = some (updNewEntry b e)) →
      (b = true → ∀ e ∈ entries, e.isFileNoF = true → e.content ≠ none) →
      updateLoop cache b entries data hashed =
        Except.ok (data ++ updNewData b entries, hashed) := by
  intro entries
  induction entries with
  | nil =>
      intro cache data hashed _ _ _ _
      simp [updateLoop, updNewData]
  | cons x rest ih =>
      intro cache data hashed hnd hfresh hget hok
      by_cases hxf : x.isFileNoF
      · have hfilter : (x :: rest).filter (fun e => e.isFileNoF) =
            x :: rest.filter (fun e => e.isFileNoF) :=
          List.filter_cons_of_pos hxf
        have hnd2 : (x.path ::
            ((rest.filter fun e => e.isFileNoF).map fun e => e.path)).Nodup := by
          rw [hfilter] at hnd
          simpa using hnd
        have hxnotin := (List.nodup_cons.mp hnd2).1
        have hndrest := (List.nodup_cons.mp hnd2).2
        have hcond : ((b && (updNewEntry b x).md5.isSome) || !b) = true := by
          rcases Bool.eq_false_or_eq_true b with hb | hb
          · subst hb
            have hcx := hok rfl x (List.mem_cons_self _ _) hxf
            cases hc : x.content with
            | none => exact absurd hc hcx
            | some bs => simp [updNewEntry, hc]
          · subst hb; rfl
        rw [updateLoop_cons_reuse cache b x rest data hashed (updNewEntry b x) hxf
          (hget x (List.mem_cons_self _ _) hxf)
          (pyEq_self (DirEntryStore.from_entry x)) hcond]
        rw [dictInsert_fresh _ _ _ (hfresh x (List.mem_cons_self _ _) hxf)]
        have hfresh' : ∀ e ∈ rest, e.isFileNoF = true →
            dictGet? (data ++ [(x.path, updNewEntry b x)]) e.path = none := by
          intro e hm hf
          have hne : x.path ≠ e.path := by
            intro hp
            apply hxnotin
            rw [hp]
            exact List.mem_map_of_mem _ (List.mem_filter.mpr ⟨hm, hf⟩)
          rw [dictGet?_append_none _ _ _ (hfresh e (List.mem_cons_of_mem _ hm) hf)]
          simp [dictGet?, hne]
        rw [ih cache (data ++ [(x.path, updNewEntry b x)]) hashed hndrest hfresh'
          (fun e hm hf => hget e (List.mem_cons_of_mem _ hm) hf)
          (fun hb e hm hf => hok hb e (List.mem_cons_of_mem _ hm) hf)]
        have hnewdata : updNewData b (x :: rest) =
            (x.path, updNewEntry b x) :: updNewData b rest := by
          rw [updNewData_eq, hfilter, List.map_cons, ← updNewData_eq]
        rw [hnewdata, ← List.append_cons]
      · have hxf' : x.isFileNoF = false := by simpa using hxf
        rw [updateLoop_cons_skip cache b x rest data hashed hxf']
        have hfilter : (x :: rest).filter (fun e => e.isFileNoF) =
            rest.filter (fun e => e.isFileNoF) :=
          List.filter_cons_of_neg (by simp [hxf'])
        have hnd' : ((rest.filter fun e => e.isFileNoF).map fun e => e.path).Nodup := by
          rw [hfilter] at hnd
          exact hnd
        have hnewdata : updNewData b (x :: rest) = updNewData b rest := by
          rw [updNewData_eq, hfilter, ← updNewData_eq]
        rw [ih cache data hashed hnd'
          (fun e hm hf => hfresh e (List.mem_cons_of_mem _ hm) hf)
          (fun e hm hf => hget e (List.mem_cons_of_mem _ hm) hf)
          (fun hb e hm hf => hok hb e (List.mem_cons_of_mem _ hm) hf)]
        rw [hnewdata]

theorem updNewData_keys (b : Bool) (entries : List PyDirEntry) :
    (updNewData b entries).map (fun kv => kv.1) =
      (entries.filter fun e => e.isFileNoF).map fun e => e.path := by
  rw [updNewData_eq, List.map_map]
  rfl

/-- Claim C3: with caching enabled, running the scan twice on an unchanged
tree yields the very same store and the very same `DuplicateScanResult`,
and the second update hashes nothing: for every file the stored record
compares equal to the freshly observed one and (when a checksum is
requested) already holds a hash, so the stored entry is reused verbatim.
The walk is assumed to visit no path twice, as on a real filesystem. -/
theorem cached_scan_idempotent (fs : FSEntries) (root : String)
    (pats : List String) (keyfunc : KeyFunc) (db1 : DB) (h1 : List String)
    (r1 : DuplicateScanResult)
    (hnodup : (walkFileKeys fs root pats).Nodup)
    (hrun1 : cached_scan ⟨[]⟩ fs root pats keyfunc = Except.ok (db1, h1, r1)) :
    cached_scan db1 fs root pats keyfunc = Except.ok (db1, [], r1) := by
  have hnd : (((scantree fs root (!pats.isEmpty) IGNORE_PATTERNS).filter
      fun e => e.isFileNoF).map fun e => e.path).Nodup := hnodup
  simp only [cached_scan, DB.update] at hrun1 ⊢
  set E := scantree fs root (!pats.isEmpty) IGNORE_PATTERNS with hE
  set b := (keyfunc == KeyFunc.md5_key) with hb
  cases hu : updateLoop [] b E [] [] with
  | error err =>
      rw [hu] at hrun1
      simp at hrun1
  | ok out =>
      obtain ⟨data1, hashed1⟩ := out
      have hfreshnil : ∀ e ∈ E, e.isFileNoF = true →
          dictGet? ([] : PyDict DbEntry) e.path = none := fun _ _ _ => rfl
      have hcontent : b = true → ∀ e ∈ E, e.isFileNoF = true → e.content ≠ none := by
        intro hbt
        rw [hbt] at hu
        exact updateLoop_ok_content E [] [] _ hu
      have hfr := updateLoop_fresh b E [] [] hnd hfreshnil hcontent
      have hout := hu.symm.trans hfr
      simp only [List.nil_append, Except.ok.injEq, Prod.mk.injEq] at hout
      obtain ⟨hdata1, hhashed1⟩ := hout
      subst hdata1
      subst hhashed1
      have hkeysnd : ((updNewData b E).map fun kv => kv.1).Nodup := by
        rw [updNewData_keys]
        exact hnd
      have hupd : dictUpdate [] (updNewData b E) = updNewData b E := by
        rw [dictUpdate_fresh (updNewData b E) [] (fun kv _ => rfl) hkeysnd]
        exact List.nil_append _
      rw [hu] at hrun1
      simp only [DB.clean, List.filter_nil, hupd] at hrun1
      simp only [Except.ok.injEq, Prod.mk.injEq] at hrun1
      obtain ⟨hdb, hhash, hr⟩ := hrun1
      subst hdb
      subst hr
      have hget : ∀ e ∈ E, e.isFileNoF = true →
          dictGet? (updNewData b E) e.path = some (updNewEntry b e) := by
        intro e hm hf
        rw [updNewData_eq]
        exact dictGet?_map_of_mem (fun x => x.path) (updNewEntry b)
          (E.filter fun e => e.isFileNoF) e (List.mem_filter.mpr ⟨hm, hf⟩) hnd
      have hrun2 := updateLoop_cached b E (updNewData b E) [] [] hnd hfreshnil hget
        hcontent
      simp only [List.nil_append] at hrun2
      have hcleanall : (updNewData b E).filter
          (fun kv => !(py_startswith kv.1 (os_path_abspath root))) = [] := by
        apply List.filter_eq_nil_iff.mpr
        intro kv hkv
        rw [updNewData_eq] at hkv
        rcases List.mem_map.mp hkv with ⟨e, hmem, rfl⟩
        have hmemE : e ∈ E := (List.mem_filter.mp hmem).1
        rw [hE] at hmemE
        have hst : py_startswith e.path root = true :=
          scanChildren_starts fs.sizeN fs (le_refl _) root (!pats.isEmpty)
            IGNORE_PATTERNS e hmemE
        simp [os_path_abspath, hst]
      simp only [hrun2, DB.clean, hcleanall, hupd]

theorem cached_scan_idempotent_witness :
    cached_scan
      ⟨[("/r/a.txt", ⟨⟨"a.txt", "/r/a.txt", false, true, false, ⟨3, 10, 1⟩⟩,
          some "[0]"⟩),
        ("/r/b.txt", ⟨⟨"b.txt", "/r/b.txt", false, true, false, ⟨3, 11, 2⟩⟩,
          some "[0]"⟩)]⟩
      (FSEntries.cons "a.txt" (FSNode.file ⟨3, 10, 1⟩ (some [0]))
        (FSEntries.cons "b.txt" (FSNode.file ⟨3, 11, 2⟩ (some [0])) FSEntries.nil))
      "/r" [] KeyFunc.md5_key =
      Except.ok
        (⟨[("/r/a.txt", ⟨⟨"a.txt", "/r/a.txt", false, true, false, ⟨3, 10, 1⟩⟩,
            some "[0]"⟩),
           ("/r/b.txt", ⟨⟨"b.txt", "/r/b.txt", false, true, false, ⟨3, 11, 2⟩⟩,
            some "[0]"⟩)]⟩, [],
         ⟨[(EqKey.kMd5 (some "[0]"),
            [⟨"a.txt", "/r/a.txt", false, true, false, ⟨3, 10, 1⟩⟩,
             ⟨"b.txt", "/r/b.txt", false, true, false, ⟨3, 11, 2⟩⟩])], 2,
          "md5_key"⟩) :=
  cached_scan_idempotent
    (FSEntries.cons "a.txt" (FSNode.file ⟨3, 10, 1⟩ (some [0]))
      (FSEntries.cons "b.txt" (FSNode.file ⟨3, 11, 2⟩ (some [0])) FSEntries.nil))
    "/r" [] KeyFunc.md5_key _ ["/r/a.txt", "/r/b.txt"] _ (by decide) rfl

theorem plainComp_ne_nil {c : List Char} (h : plainComp c = true) : c ≠ [] := by
  intro hnil
  rw [hnil] at h
  simp [plainComp] at h

theorem plainComp_no_slash {c : List Char} (h : plainComp c = true) :
    ∀ ch ∈ c, ch ≠ '/' := by
  intro ch hm heq
  simp only [plainComp, Bool.and_eq_true, Bool.not_eq_true'] at h
  have hcontains := h.1.1.2
  rw [← heq] at hcontains
  have : ch ∉ c := by simpa using hcontains
  exact this hm

theorem plainComp_ne_pardir {c : List Char} (h : plainComp c = true) :
    c ≠ pardirC := by
  simp only [plainComp, Bool.and_eq_true, Bool.not_eq_true'] at h
  exact ne_of_beq_false h.2

theorem plainComp_ne_curdir {c : List Char} (h : plainComp c = true) :
    c ≠ curdirC := by
  simp only [plainComp, Bool.and_eq_true, Bool.not_eq_true'] at h
  exact ne_of_beq_false h.1.2

theorem splitCh_no_slash : ∀ (p : List Char), (∀ c ∈ p, c ≠ '/') →
    splitCh p = [p] := by
  intro p
  induction p with
  | nil => intro _; rfl
  | cons c rest ih =>
      intro h
      have hc : c ≠ '/' := h c (List.mem_cons_self _ _)
      have hrest := ih fun x hx => h x (List.mem_cons_of_mem _ hx)
      simp only [splitCh, hc, if_false, hrest]

theorem splitCh_append_slash : ∀ (p r : List Char), (∀ c ∈ p, c ≠ '/') →
    splitCh (p ++ '/' :: r) = p :: splitCh r := by
  intro p
  induction p with
  | nil => intro r _; simp [splitCh]
  | cons c rest ih =>
      intro r h
      have hc : c ≠ '/' := h c (List.mem_cons_self _ _)
      have hrest := ih r fun x hx => h x (List.mem_cons_of_mem _ hx)
      simp only [List.cons_append, splitCh, hc, if_false, List.append_eq, hrest]

theorem splitCh_joinCh : ∀ (ps : List (List Char)), ps ≠ [] →
    (∀ p ∈ ps, ∀ c ∈ p, c ≠ '/') → splitCh (joinCh ps) = ps := by
  intro ps
  induction ps with
  | nil => intro h _; exact absurd rfl h
  | cons p rest ih =>
      intro _ h
      cases rest with
      | nil =>
          exact splitCh_no_slash p (h p (List.mem_cons_self _ _))
      | cons q qs =>
          have hp := h p (List.mem_cons_self _ _)
          have hrest := ih (by simp) fun x hx c hc =>
            h x (List.mem_cons_of_mem _ hx) c hc
          show splitCh (p ++ '/' :: joinCh (q :: qs)) = p :: q :: qs
          rw [splitCh_append_slash p _ hp, hrest]

theorem joinCh_concat : ∀ (l : List (List Char)) (x : List Char), l ≠ [] →
    joinCh (l ++ [x]) = joinCh l ++ '/' :: x := by
  intro l
  induction l with
  | nil => intro x h; exact absurd rfl h
  | cons p rest ih =>
      intro x _
      cases rest with
      | nil => rfl
      | cons q qs =>
          show joinCh (p :: ((q :: qs) ++ [x])) = (p ++ '/' :: joinCh (q :: qs)) ++ '/' :: x
          have h2 := ih x (by simp)
          show p ++ '/' :: joinCh ((q :: qs) ++ [x]) = (p ++ '/' :: joinCh (q :: qs)) ++ '/' :: x
          rw [h2, List.append_assoc, List.cons_append]

theorem partsOf_mkAbs : ∀ (l : List (List Char)), (∀ c ∈ l, plainComp c = true) →
    partsOf (mkAbs l) = l := by
  intro l hl
  have hdata : (mkAbs l).data = '/' :: joinCh l := rfl
  unfold partsOf
  rw [hdata]
  have hsplit0 : splitCh ('/' :: joinCh l) = [] :: splitCh (joinCh l) := by
    simp [splitCh]
  rw [hsplit0]
  cases l with
  | nil => rfl
  | cons p rest =>
      rw [splitCh_joinCh (p :: rest) (by simp)
        (fun x hx c hc => plainComp_no_slash (hl x hx) c hc)]
      rw [List.filter_cons]
      simp only [List.isEmpty_nil, Bool.not_true, Bool.false_eq_true, if_false]
      apply List.filter_eq_self.mpr
      intro a ha
      have := plainComp_ne_nil (hl a ha)
      simpa [List.isEmpty_iff] using this

theorem dropWhile_all {α : Type} (p : α → Bool) :
    ∀ (x r : List α), (∀ c ∈ x, p c = true) →
      List.dropWhile p (x ++ r) = List.dropWhile p r := by
  intro x
  induction x with
  | nil => intro r _; rfl
  | cons c cs ih =>
      intro r h
      rw [List.cons_append, List.dropWhile_cons_of_pos (h c (List.mem_cons_self _ _))]
      exact ih r fun a ha => h a (List.mem_cons_of_mem _ ha)

theorem joinCh_reverse_head : ∀ (l : List (List Char)), l ≠ [] →
    (∀ pp ∈ l, plainComp pp = true) →
    ∃ c cs, (joinCh l).reverse = c :: cs ∧ c ≠ '/' := by
  intro l
  induction l with
  | nil => intro h _; exact absurd rfl h
  | cons p rest ih =>
      intro _ hl
      cases rest with
      | nil =>
          have hp := hl p (List.mem_cons_self _ _)
          cases hrev : p.reverse with
          | nil =>
              have : p = [] := by simpa using congrArg List.reverse hrev
              exact absurd this (plainComp_ne_nil hp)
          | cons c cs =>
              refine ⟨c, cs, ?_, ?_⟩
              · simpa [joinCh] using hrev
              · apply plainComp_no_slash hp
                have : c ∈ p.reverse := by rw [hrev]; exact List.mem_cons_self _ _
                exact List.mem_reverse.mp this
      | cons q qs =>
          have hrest := ih (by simp) fun x hx => hl x (List.mem_cons_of_mem _ hx)
          rcases hrest with ⟨c, cs, hrev, hcne⟩
          refine ⟨c, cs ++ '/' :: p.reverse, ?_, hcne⟩
          show (p ++ '/' :: joinCh (q :: qs)).reverse = c :: (cs ++ '/' :: p.reverse)
          rw [List.reverse_append, List.reverse_cons, List.append_assoc, hrev]
          simp

theorem os_path_dirname_mkAbs : ∀ (l : List (List Char)) (x : List Char),
    (∀ c ∈ l, plainComp c = true) → plainComp x = true →
    os_path_dirname (mkAbs (l ++ [x])) = mkAbs l := by
  intro l x hl hx
  have hxslash : ∀ c ∈ x.reverse, (decide (c ≠ '/')) = true := by
    intro c hc
    simp [plainComp_no_slash hx c (List.mem_reverse.mp hc)]
  cases l with
  | nil =>
      have hdata : (mkAbs ([] ++ [x])).data = '/' :: x := by
        show ('/' :: joinCh [x]) = '/' :: x
        rfl
      unfold os_path_dirname
      rw [hdata]
      rw [List.reverse_cons]
      rw [dropWhile_all _ x.reverse ['/'] hxslash]
      have hstep : List.dropWhile (fun c => decide (c ≠ '/')) ['/'] = ['/'] := by
        simp [List.dropWhile_cons]
      rw [hstep]
      simp [mkAbs, joinCh]
  | cons p rest =>
      have hjoin : joinCh ((p :: rest) ++ [x]) = joinCh (p :: rest) ++ '/' :: x :=
        joinCh_concat (p :: rest) x (by simp)
      have hdata : (mkAbs ((p :: rest) ++ [x])).data =
          '/' :: (joinCh (p :: rest) ++ '/' :: x) := by
        show '/' :: joinCh ((p :: rest) ++ [x]) = _
        rw [hjoin]
      rcases joinCh_reverse_head (p :: rest) (by simp) hl with ⟨c, cs, hrev, hcne⟩
      unfold os_path_dirname
      rw [hdata]
      have hrev1 : ('/' :: (joinCh (p :: rest) ++ '/' :: x)).reverse =
          x.reverse ++ '/' :: ((joinCh (p :: rest)).reverse ++ ['/']) := by
        rw [List.reverse_cons, List.reverse_append, List.reverse_cons,
          List.append_assoc, List.append_assoc]
        rfl
      rw [hrev1]
      rw [dropWhile_all _ x.reverse _ hxslash]
      have hstop : List.dropWhile (fun c => decide (c ≠ '/'))
          ('/' :: ((joinCh (p :: rest)).reverse ++ ['/'])) =
          '/' :: ((joinCh (p :: rest)).reverse ++ ['/']) := by
        simp [List.dropWhile_cons]
      rw [hstop]
      have hhead : ('/' :: ((joinCh (p :: rest)).reverse ++ ['/'])).reverse =
          '/' :: (joinCh (p :: rest) ++ ['/']) := by
        rw [List.reverse_cons, List.reverse_append, List.reverse_reverse]
        rfl
      rw [hhead]
      have hne : ('/' :: (joinCh (p :: rest) ++ ['/'])).isEmpty = false := rfl
      have hany : ('/' :: (joinCh (p :: rest) ++ ['/'])).any
          (fun ch => decide (ch ≠ '/')) = true := by
        apply List.any_eq_true.mpr
        have hcmem : c ∈ joinCh (p :: rest) := by
          apply List.mem_reverse.mp
          rw [hrev]
          exact List.mem_cons_self _ _
        refine ⟨c, ?_, by simp [hcne]⟩
        exact List.mem_cons_of_mem _ (List.mem_append_left _ hcmem)
      simp only [hne, hany, Bool.not_false, Bool.true_and, eq_self_iff_true,
        if_true]
      have hrev2 : ('/' :: (joinCh (p :: rest) ++ ['/'])).reverse =
          '/' :: c :: (cs ++ ['/']) := by
        rw [List.reverse_cons, List.reverse_append, hrev]
        rfl
      rw [hrev2]
      have hdrop2 : List.dropWhile (fun ch => decide (ch = '/'))
          ('/' :: c :: (cs ++ ['/'])) = c :: (cs ++ ['/']) := by
        rw [List.dropWhile_cons_of_pos (by simp)]
        rw [List.dropWhile_cons_of_neg (by simp [hcne])]
      rw [hdrop2]
      have hrev3 : (c :: (cs ++ ['/'])).reverse = '/' :: joinCh (p :: rest) := by
        have : (c :: (cs ++ ['/'])) = (c :: cs) ++ ['/'] := by simp
        rw [this, List.reverse_append, ← hrev, List.reverse_reverse]
        rfl
      rw [hrev3]
      rfl

theorem cpl_le_left : ∀ (a b : List (List Char)), commonPrefixLen a b ≤ a.length := by
  intro a
  induction a with
  | nil => intro b; simp [commonPrefixLen]
  | cons x xs ih =>
      intro b
      cases b with
      | nil => simp [commonPrefixLen]
      | cons y ys =>
          by_cases h : x = y
          · have hstep : commonPrefixLen (x :: xs) (y :: ys) =
                commonPrefixLen xs ys + 1 := by
              simp [commonPrefixLen, h]
            rw [hstep, List.length_cons]
            have := ih ys
            omega
          · simp [commonPrefixLen, h]

theorem cpl_le_right : ∀ (a b : List (List Char)), commonPrefixLen a b ≤ b.length := by
  intro a
  induction a with
  | nil => intro b; simp [commonPrefixLen]
  | cons x xs ih =>
      intro b
      cases b with
      | nil => simp [commonPrefixLen]
      | cons y ys =>
          by_cases h : x = y
          · have hstep : commonPrefixLen (x :: xs) (y :: ys) =
                commonPrefixLen xs ys + 1 := by
              simp [commonPrefixLen, h]
            rw [hstep, List.length_cons]
            have := ih ys
            omega
          · simp [commonPrefixLen, h]

theorem take_cpl : ∀ (a b : List (List Char)),
    a.take (commonPrefixLen a b) = b.take (commonPrefixLen a b) := by
  intro a
  induction a with
  | nil => intro b; simp [commonPrefixLen]
  | cons x xs ih =>
      intro b
      cases b with
      | nil => simp [commonPrefixLen]
      | cons y ys =>
          by_cases h : x = y
          · subst h
            have hstep : commonPrefixLen (x :: xs) (x :: ys) =
                commonPrefixLen xs ys + 1 := by
              simp [commonPrefixLen]
            rw [hstep, List.take_succ_cons, List.take_succ_cons, ih ys]
          · simp [commonPrefixLen, h]

theorem cpl_full_eq (a b : List (List Char))
    (h1 : commonPrefixLen a b = a.length) (h2 : commonPrefixLen a b = b.length) :
    a = b := by
  have heq : a.length = b.length := by rw [← h1, h2]
  have hta := take_cpl a b
  rw [h1, List.take_length] at hta
  rw [hta, heq, List.take_length]

theorem applyRel_append (base r1 r2 : List (List Char)) :
    applyRel base (r1 ++ r2) = applyRel (applyRel base r1) r2 := by
  simp [applyRel, List.foldl_append]

theorem applyRel_pardirs : ∀ (k : Nat) (base : List (List Char)),
    applyRel base (List.replicate k pardirC) = base.take (base.length - k) := by
  intro k
  induction k with
  | zero =>
      intro base
      simp [applyRel, List.take_length]
  | succ n ih =>
      intro base
      rw [List.replicate_succ]
      have hstep : applyRel base (pardirC :: List.replicate n pardirC) =
          applyRel base.dropLast (List.replicate n pardirC) := by
        simp [applyRel]
      rw [hstep, ih, List.length_dropLast, List.dropLast_eq_take, List.take_take]
      have : min (base.length - 1 - n) (base.length - 1) = base.length - (n + 1) := by
        omega
      rw [this]

theorem applyRel_plain : ∀ (comps base : List (List Char)),
    (∀ c ∈ comps, plainComp c = true) → applyRel base comps = base ++ comps := by
  intro comps
  induction comps with
  | nil => intro base _; simp [applyRel]
  | cons c rest ih =>
      intro base h
      have hc := h c (List.mem_cons_self _ _)
      have hstep : applyRel base (c :: rest) = applyRel (base ++ [c]) rest := by
        simp [applyRel, plainComp_ne_pardir hc, plainComp_ne_curdir hc]
      rw [hstep, ih (base ++ [c]) (fun a ha => h a (List.mem_cons_of_mem _ ha))]
      simp

theorem relpath_resolves (sp d : List (List Char))
    (hsp : ∀ c ∈ sp, plainComp c = true) (hd : ∀ c ∈ d, plainComp c = true) :
    applyRel d (partsOf (os_path_relpath (mkAbs sp) (mkAbs d))) = sp := by
  have hpd := partsOf_mkAbs d hd
  have hps := partsOf_mkAbs sp hsp
  unfold os_path_relpath relParts
  simp only [os_path_abspath, hpd, hps]
  set i := commonPrefixLen d sp with hi
  by_cases hrel : (List.replicate (d.length - i) pardirC ++ sp.drop i).isEmpty = true
  · rw [if_pos hrel]
    have hdot : partsOf "." = [curdirC] := rfl
    rw [hdot]
    have h1 : applyRel d [curdirC] = d := by simp [applyRel, pardirC, curdirC]
    rw [h1]
    rw [List.isEmpty_iff, List.append_eq_nil] at hrel
    have hle1 : d.length - i = 0 := by
      have := congrArg List.length hrel.1
      simpa using this
    have hle2 : sp.length - i = 0 := by
      have := congrArg List.length hrel.2
      simpa using this
    have hbound1 := cpl_le_left d sp
    have hbound2 := cpl_le_right d sp
    apply cpl_full_eq d sp
    · rw [← hi]; omega
    · rw [← hi]; omega
  · rw [if_neg hrel]
    have hrelne : List.replicate (d.length - i) pardirC ++ sp.drop i ≠ [] := by
      intro hh
      exact hrel (by simp [hh])
    have hslashfree : ∀ p ∈ List.replicate (d.length - i) pardirC ++ sp.drop i,
        ∀ c ∈ p, c ≠ '/' := by
      intro p hp
      rcases List.mem_append.mp hp with hp1 | hp2
      · have hpar : p = pardirC := List.eq_of_mem_replicate hp1
        subst hpar
        intro c hc
        simp only [pardirC] at hc
        rcases List.mem_cons.mp hc with rfl | hc2
        · decide
        · rcases List.mem_cons.mp hc2 with rfl | hc3
          · decide
          · exact absurd hc3 (List.not_mem_nil c)
      · exact plainComp_no_slash (hsp p (List.mem_of_mem_drop hp2))
    have hparts : partsOf ⟨joinCh (List.replicate (d.length - i) pardirC ++
        sp.drop i)⟩ = List.replicate (d.length - i) pardirC ++ sp.drop i := by
      unfold partsOf
      rw [show (String.mk (joinCh (List.replicate (d.length - i) pardirC ++
        sp.drop i))).data = joinCh (List.replicate (d.length - i) pardirC ++
        sp.drop i) from rfl]
      rw [splitCh_joinCh _ hrelne hslashfree]
      apply List.filter_eq_self.mpr
      intro a ha
      rcases List.mem_append.mp ha with ha1 | ha2
      · have : a = pardirC := List.eq_of_mem_replicate ha1
        subst this
        decide
      · have := plainComp_ne_nil (hsp a (List.mem_of_mem_drop ha2))
        simpa [List.isEmpty_iff] using this
    rw [hparts]
    rw [applyRel_append, applyRel_pardirs]
    have hi_le : i ≤ d.length := by rw [hi]; exact cpl_le_left d sp
    have harith : d.length - (d.length - i) = i := by omega
    rw [harith]
    rw [applyRel_plain _ _ (fun c hc => hsp c (List.mem_of_mem_drop hc))]
    have htake : d.take i = sp.take i := by
      rw [hi]
      exact take_cpl d sp
    rw [htake, List.take_append_drop]

theorem dictGet?_eq_none_iff {α : Type} :
    ∀ (d : PyDict α) (p : String),
      dictGet? d p = none ↔ p ∉ d.map fun kv => kv.1 := by
  intro d
  induction d with
  | nil => intro p; simp [dictGet?]
  | cons kv rest ih =>
      intro p
      by_cases hk : kv.1 = p
      · simp [dictGet?, hk]
      · simp only [dictGet?, hk, if_false, List.map_cons, List.mem_cons]
        rw [ih p]
        constructor
        · intro h hmem
          rcases hmem with hmem | hmem
          · exact hk hmem.symm
          · exact h hmem
        · intro h hmem
          exact h (Or.inr hmem)

theorem dictGet?_remove_ne {α : Type} :
    ∀ (d : PyDict α) (p q : String), q ≠ p →
      dictGet? (dictRemove d p) q = dictGet? d q := by
  intro d
  induction d with
  | nil => intro p q _; rfl
  | cons kv rest ih =>
      intro p q hqp
      by_cases hk : kv.1 = p
      · rw [show dictRemove (kv :: rest) p = rest by simp [dictRemove, hk]]
        have : kv.1 ≠ q := by rw [hk]; exact fun hh => hqp hh.symm
        simp [dictGet?, this]
      · rw [show dictRemove (kv :: rest) p = kv :: dictRemove rest p by
          simp [dictRemove, hk]]
        by_cases hq : kv.1 = q
        · simp [dictGet?, hq]
        · simp only [dictGet?, hq, if_false]
          exact ih p q hqp

theorem keys_remove_sublist {α : Type} :
    ∀ (d : PyDict α) (p : String),
      ((dictRemove d p).map fun kv => kv.1).Sublist (d.map fun kv => kv.1) := by
  intro d
  induction d with
  | nil => intro p; simp [dictRemove]
  | cons kv rest ih =>
      intro p
      by_cases hk : kv.1 = p
      · rw [show dictRemove (kv :: rest) p = rest by simp [dictRemove, hk]]
        exact (List.sublist_cons_self _ _)
      · rw [show dictRemove (kv :: rest) p = kv :: dictRemove rest p by
          simp [dictRemove, hk]]
        simp only [List.map_cons]
        exact List.Sublist.cons₂ _ (ih p)

theorem nodup_remove {α : Type} (d : PyDict α) (p : String)
    (h : (d.map fun kv => kv.1).Nodup) :
    ((dictRemove d p).map fun kv => kv.1).Nodup :=
  (keys_remove_sublist d p).nodup h

theorem dictGet?_remove_self {α : Type} :
    ∀ (d : PyDict α) (p : String), (d.map fun kv => kv.1).Nodup →
      dictGet? (dictRemove d p) p = none := by
  intro d
  induction d with
  | nil => intro p _; rfl
  | cons kv rest ih =>
      intro p hnd
      by_cases hk : kv.1 = p
      · rw [show dictRemove (kv :: rest) p = rest by simp [dictRemove, hk]]
        apply (dictGet?_eq_none_iff rest p).mpr
        intro hmem
        rw [List.map_cons] at hnd
        apply (List.nodup_cons.mp hnd).1
        rw [hk]
        exact hmem
      · rw [show dictRemove (kv :: rest) p = kv :: dictRemove rest p by
          simp [dictRemove, hk]]
        simp only [dictGet?, hk, if_false]
        rw [List.map_cons] at hnd
        exact ih p (List.nodup_cons.mp hnd).2

theorem nodup_append_one {α : Type} (d : PyDict α) (p : String) (v : α)
    (hnd : (d.map fun kv => kv.1).Nodup) (hget : dictGet? d p = none) :
    ((d ++ [(p, v)]).map fun kv => kv.1).Nodup := by
  rw [List.map_append]
  rw [List.nodup_append]
  refine ⟨hnd, by simp, ?_⟩
  intro x hx hx2
  simp only [List.map_cons, List.map_nil, List.mem_singleton] at hx2
  subst hx2
  exact (dictGet?_eq_none_iff d x).mp hget hx

theorem dictGet?_append_single_ne {α : Type} (d : PyDict α) (p q : String) (v : α)
    (h : q ≠ p) : dictGet? (d ++ [(p, v)]) q = dictGet? d q := by
  cases hq : dictGet? d q with
  | some w => exact dictGet?_append_some d _ q w hq
  | none =>
      rw [dictGet?_append_none d _ q hq]
      have hpq : ¬p = q := fun hh => h hh.symm
      simp [dictGet?, hpq, hq]

theorem cleanOne_eval (src dst : DirEntryStore) (fs : FileSystem) (obj : FsObject)
    (hget : dictGet? fs dst.path = some obj)
    (hnd : (fs.map fun kv => kv.1).Nodup) :
    cleanOne src true fs dst = Except.ok (dictRemove fs dst.path ++
      [(dst.path, FsObject.link
        (os_path_relpath src.path (os_path_dirname dst.path)))]) := by
  have h1 : (dictGet? fs dst.path).isSome = true := by rw [hget]; rfl
  have h2 : dictGet? (dictRemove fs dst.path) dst.path = none :=
    dictGet?_remove_self fs dst.path hnd
  unfold cleanOne
  simp only [pydupsDEBUG, Bool.false_eq_true, if_false]
  unfold os_remove
  rw [if_pos h1]
  simp only [if_true]
  unfold os_symlink
  rw [if_neg (by simp [h2])]

/-- Claim C8: on a duplicate group of three files, `clean_duplicates` with
link replacement enabled leaves the first member in place (still the same
regular file, not a link) and replaces exactly the two other members by
symbolic links whose relative targets resolve to the survivor; every other
path of the filesystem is untouched.  Paths are normalised absolute paths
(built from plain components), as the scan produces. -/
theorem clean_duplicates_group_of_three
    (k : EqKey) (a b c : DirEntryStore) (la lb lc : List (List Char))
    (ca cb cc : List Nat) (fs : FileSystem)
    (hla : ∀ x ∈ la, plainComp x = true) (hlb : ∀ x ∈ lb, plainComp x = true)
    (hlc : ∀ x ∈ lc, plainComp x = true)
    (hlbne : lb ≠ []) (hlcne : lc ≠ [])
    (hpa : a.path = mkAbs la) (hpb : b.path = mkAbs lb) (hpc : c.path = mkAbs lc)
    (hab : a.path ≠ b.path) (hac : a.path ≠ c.path) (hbc : b.path ≠ c.path)
    (hnd : (fs.map fun kv => kv.1).Nodup)
    (hga : dictGet? fs a.path = some (FsObject.regular ca))
    (hgb : dictGet? fs b.path = some (FsObject.regular cb))
    (hgc : dictGet? fs c.path = some (FsObject.regular cc)) :
    ∃ fs', clean_duplicates [(k, [a, b, c])] true fs = Except.ok fs' ∧
      dictGet? fs' a.path = some (FsObject.regular ca) ∧
      dictGet? fs' b.path = some (FsObject.link
        (os_path_relpath a.path (os_path_dirname b.path))) ∧
      dictGet? fs' c.path = some (FsObject.link
        (os_path_relpath a.path (os_path_dirname c.path))) ∧
      resolvesTo (os_path_dirname b.path)
        (os_path_relpath a.path (os_path_dirname b.path)) a.path ∧
      resolvesTo (os_path_dirname c.path)
        (os_path_relpath a.path (os_path_dirname c.path)) a.path ∧
      ∀ q, q ≠ b.path → q ≠ c.path → dictGet? fs' q = dictGet? fs q := by
  have hnd1 : ((dictRemove fs b.path).map fun kv => kv.1).Nodup :=
    nodup_remove fs b.path hnd
  have hbnone1 : dictGet? (dictRemove fs b.path) b.path = none :=
    dictGet?_remove_self fs b.path hnd
  set relb := os_path_relpath a.path (os_path_dirname b.path) with hrelbdef
  set relc := os_path_relpath a.path (os_path_dirname c.path) with hrelcdef
  set fs2 := dictRemove fs b.path ++ [(b.path, FsObject.link relb)] with hfs2
  have hnd2 : (fs2.map fun kv => kv.1).Nodup := nodup_append_one _ _ _ hnd1 hbnone1
  have hgc2 : dictGet? fs2 c.path = some (FsObject.regular cc) := by
    rw [hfs2]
    apply dictGet?_append_some
    rw [dictGet?_remove_ne fs b.path c.path (fun hh => hbc hh.symm)]
    exact hgc
  set fs4 := dictRemove fs2 c.path ++ [(c.path, FsObject.link relc)] with hfs4
  have hstep1 : cleanOne a true fs b = Except.ok fs2 :=
    cleanOne_eval a b fs _ hgb hnd
  have hstep2 : cleanOne a true fs2 c = Except.ok fs4 :=
    cleanOne_eval a c fs2 _ hgc2 hnd2
  have hbind : ∀ (x : FileSystem) (g : FileSystem → Except PyError FileSystem),
      (Except.ok x >>= g) = g x := fun x g => rfl
  have hrun : clean_duplicates [(k, [a, b, c])] true fs = Except.ok fs4 := by
    unfold clean_duplicates
    simp only [List.foldlM_cons, List.foldlM_nil, hstep1, hbind, hstep2]
    rfl
  refine ⟨fs4, hrun, ?_, ?_, ?_, ?_, ?_, ?_⟩
  · rw [hfs4, dictGet?_append_single_ne _ _ _ _ hac,
      dictGet?_remove_ne _ _ _ hac, hfs2,
      dictGet?_append_single_ne _ _ _ _ hab,
      dictGet?_remove_ne _ _ _ hab]
    exact hga
  · rw [hfs4, dictGet?_append_single_ne _ _ _ _ hbc,
      dictGet?_remove_ne _ _ _ hbc, hfs2,
      dictGet?_append_none _ _ _ hbnone1]
    simp [dictGet?]
  · have hcnone3 : dictGet? (dictRemove fs2 c.path) c.path = none :=
      dictGet?_remove_self fs2 c.path hnd2
    rw [hfs4, dictGet?_append_none _ _ _ hcnone3]
    simp [dictGet?]
  · rcases List.eq_nil_or_concat' lb with hnil | ⟨lb', x, hconcat⟩
    · exact absurd hnil hlbne
    · subst hconcat
      have hplainlb' : ∀ y ∈ lb', plainComp y = true := fun y hy =>
        hlb y (List.mem_append_left _ hy)
      have hpx : plainComp x = true := hlb x (List.mem_append_right _ (by simp))
      have hdir : os_path_dirname b.path = mkAbs lb' := by
        rw [hpb]
        exact os_path_dirname_mkAbs lb' x hplainlb' hpx
      unfold resolvesTo
      have hrelb2 : relb = os_path_relpath (mkAbs la) (mkAbs lb') := by
        rw [hrelbdef, hpa, hdir]
      rw [hdir, hpa, partsOf_mkAbs la hla, partsOf_mkAbs lb' hplainlb', hrelb2]
      exact relpath_resolves la lb' hla hplainlb'
  · rcases List.eq_nil_or_concat' lc with hnil | ⟨lc', x, hconcat⟩
    · exact absurd hnil hlcne
    · subst hconcat
      have hplainlc' : ∀ y ∈ lc', plainComp y = true := fun y hy =>
        hlc y (List.mem_append_left _ hy)
      have hpx : plainComp x = true := hlc x (List.mem_append_right _ (by simp))
      have hdir : os_path_dirname c.path = mkAbs lc' := by
        rw [hpc]
        exact os_path_dirname_mkAbs lc' x hplainlc' hpx
      unfold resolvesTo
      have hrelc2 : relc = os_path_relpath (mkAbs la) (mkAbs lc') := by
        rw [hrelcdef, hpa, hdir]
      rw [hdir, hpa, partsOf_mkAbs la hla, partsOf_mkAbs lc' hplainlc', hrelc2]
      exact relpath_resolves la lc' hla hplainlc'
  · intro q hqb hqc
    rw [hfs4, dictGet?_append_single_ne _ _ _ _ hqc,
      dictGet?_remove_ne _ _ _ hqc, hfs2,
      dictGet?_append_single_ne _ _ _ _ hqb,
      dictGet?_remove_ne _ _ _ hqb]

theorem clean_duplicates_group_of_three_witness :
    ∃ fs', clean_duplicates [(EqKey.kName "n",
        [⟨"a", "/r/a", false, true, false, ⟨1, 1, 1⟩⟩,
         ⟨"b", "/r/d/b", false, true, false, ⟨1, 1, 2⟩⟩,
         ⟨"c", "/r/c", false, true, false, ⟨1, 1, 3⟩⟩])] true
        [("/r/a", FsObject.regular [0]), ("/r/d/b", FsObject.regular [0]),
         ("/r/c", FsObject.regular [0]), ("/r/x", FsObject.regular [9])] =
      Except.ok fs' ∧
      dictGet? fs' "/r/a" = some (FsObject.regular [0]) ∧
      dictGet? fs' "/r/d/b" = some (FsObject.link
        (os_path_relpath "/r/a" (os_path_dirname "/r/d/b"))) ∧
      dictGet? fs' "/r/c" = some (FsObject.link
        (os_path_relpath "/r/a" (os_path_dirname "/r/c"))) ∧
      resolvesTo (os_path_dirname "/r/d/b")
        (os_path_relpath "/r/a" (os_path_dirname "/r/d/b")) "/r/a" ∧
      resolvesTo (os_path_dirname "/r/c")
        (os_path_relpath "/r/a" (os_path_dirname "/r/c")) "/r/a" ∧
      ∀ q, q ≠ "/r/d/b" → q ≠ "/r/c" →
        dictGet? fs' q = dictGet?
          [("/r/a", FsObject.regular [0]), ("/r/d/b", FsObject.regular [0]),
           ("/r/c", FsObject.regular [0]), ("/r/x", FsObject.regular [9])] q :=
  clean_duplicates_group_of_three (EqKey.kName "n")
    ⟨"a", "/r/a", false, true, false, ⟨1, 1, 1⟩⟩
    ⟨"b", "/r/d/b", false, true, false, ⟨1, 1, 2⟩⟩
    ⟨"c", "/r/c", false, true, false, ⟨1, 1, 3⟩⟩
    [['r'], ['a']] [['r'], ['d'], ['b']] [['r'], ['c']]
    [0] [0] [0]
    [("/r/a", FsObject.regular [0]), ("/r/d/b", FsObject.regular [0]),
     ("/r/c", FsObject.regular [0]), ("/r/x", FsObject.regular [9])]
    (by decide) (by decide) (by decide) (by decide) (by decide)
    (by decide) (by decide) (by decide) (by decide) (by decide) (by decide)
    (by decide) (by decide) (by decide) (by decide)
